import Mathlib

/-!
Verification of the graph path-search toolkit (bevy_graph).

The Rust sources under src/src/graph_functions are shallowly embedded below:
entities are naturals, queries are association lists, f32 edge weights are
rationals, the priority queue is a list popped at its first minimal entry,
and the unbounded Rust loops take an explicit fuel that is provably larger
than the number of iterations any run can perform.  A Rust value of type
Result is an `ok` or `err` outcome; a Rust panic (a failing unwrap or
expect) is the distinguished outcome `panicked`.

The support types GraphError, GraphPath, VisitedNodes, InvalidPathError and
NoneValueResponse are referenced by the sources but their definitions are
not part of the source tree; they are modelled from the specification
(sections 3 and 7), as marked on each definition.
-/

/-- Vertex identifiers: the Entity id of the external store. -/
abbrev Entity := Nat

/-- Modelled from the spec: the search error taxonomy of section 7
(InvalidEntity, NoPath, NegativeWeight); the enum itself is referenced by
the search modules but defined outside src. -/
inductive GraphError where
  | invalidEntity
  | noPath
  | negativeWeight
deriving DecidableEq, Repr

/-- Modelled from the spec: the error of predecessor-chain reconstruction
(section 7, InvalidPath); a unit struct in the source. -/
structure InvalidPathError where
deriving DecidableEq, Repr

/-- Outcome of running a Rust function returning Result: an Ok value, an
Err value, or a panic (from unwrap or expect on an Err). -/
inductive RustOutcome (α : Type) where
  | ok (val : α)
  | err (e : GraphError)
  | panicked
deriving DecidableEq, Repr

/-- Rust expect and unwrap on a Result inside an Ok-returning function:
the Ok value is returned, an Err panics. -/
def expectOk : Except InvalidPathError (List α) → RustOutcome (List α)
  | .ok v => .ok v
  | .error _ => .panicked

/-- Modelled from the spec: GraphPath is an ordered sequence of
(VertexId, payload) pairs running from destination to source (section 3). -/
abbrev GraphPath (D : Type) := List (Entity × D)

/-- Modelled from the spec: the single-vertex path constructor used by the
searches when start and end coincide. -/
def GraphPath.single (e : Entity) (d : D) : GraphPath D := [(e, d)]

/-- Query of unweighted vertices: each present entity with its ordered
neighbour list (get_neighbours). -/
abbrev UGraph := List (Entity × List Entity)

/-- Query of weighted vertices: each present entity with its ordered
(neighbour, edge weight) list (get_neighbours_with_weight).  The weight
type W stands for the f32 of the source: a linearly ordered type with a
zero and an addition. -/
abbrev WGraph (W : Type) := List (Entity × List (Entity × W))

/-- Association-list lookup, mirroring Query::get and HashMap::get:
the value of the first entry with the given key. -/
def qget : List (Nat × α) → Nat → Option α
  | [], _ => none
  | (k, v) :: rest, e => if k = e then some v else qget rest e

/-- Update the value stored under a key, mirroring HashMap get_mut
assignment; entries with other keys are unchanged. -/
def updAssoc : List (Nat × α) → Nat → α → List (Nat × α)
  | [], _, _ => []
  | (k, v) :: rest, e, w => if k = e then (k, w) :: updAssoc rest e w else (k, v) :: updAssoc rest e w

/-- Modelled from the spec: a visited record holds the optional
predecessor, the discovery step and the cumulative weight (section 3). -/
structure VisitedRecord where
  pred : Option Entity
  step : Nat
  weight : Rat
deriving DecidableEq, Repr

/-- Modelled from the spec: VisitedNodes records, per visited vertex, its
VisitedRecord, in discovery order (section 3). -/
structure VisitedNodes where
  entries : List (Entity × VisitedRecord)
deriving DecidableEq, Repr

/-- Modelled from the spec: a fresh visited map holding only the start
vertex, whose predecessor is absent. -/
def VisitedNodes.new_from_start (s : Entity) : VisitedNodes :=
  ⟨[(s, ⟨none, 0, 0⟩)]⟩

/-- Membership test on the visited map. -/
def VisitedNodes.is_visited (vn : VisitedNodes) (e : Entity) : Bool :=
  (qget vn.entries e).isSome

/-- Modelled from the spec: record a first discovery with its predecessor,
step and weight. -/
def VisitedNodes.insert (vn : VisitedNodes) (e prev : Entity) (step : Nat) (w : Rat) : VisitedNodes :=
  ⟨vn.entries ++ [(e, ⟨some prev, step, w⟩)]⟩

/-- The predecessor chain follower of determine_path (helper.rs): push the
current predecessor, look up its own predecessor, and fail once the path
grows beyond the size of the map (a cycle) or a predecessor is missing.
The structural counter k makes the recursion structural; whenever
k + path.length exceeds maxLen the exhaustion branch returns the same
InvalidPathError the length check would, so any starting counter of at
least maxLen + 1 gives the loop of the source exactly. -/
def followChain (m : List (Entity × Option Entity)) (maxLen : Nat) :
    Nat → Option Entity → List Entity → Except InvalidPathError (List Entity)
  | _, none, path => .ok path
  | 0, some _, _ => .error ⟨⟩
  | k + 1, some p, path =>
    match qget m p with
    | none => .error ⟨⟩
    | some nxt =>
      if path.length + 1 > maxLen then .error ⟨⟩
      else followChain m maxLen k nxt (path ++ [p])

/-- determine_path (helper.rs): follow the predecessor chain from the final
vertex, returning the reverse path, or InvalidPathError on a loop or a
dangling predecessor. -/
def determine_path (visited : List (Entity × Option Entity)) (final_vert : Entity) :
    Except InvalidPathError (List Entity) :=
  match qget visited final_vert with
  | none => .error ⟨⟩
  | some to_follow => followChain visited visited.length (visited.length + 2) to_follow [final_vert]

/-- The predecessor projection of a visited map, as handed to the path
reconstruction. -/
def predProj (vn : VisitedNodes) : List (Entity × Option Entity) :=
  vn.entries.map fun p => (p.1, p.2.pred)

/-- Modelled from the spec: VisitedNodes rebuilds the destination-to-source
path by predecessor-chain following (section 3), with unit payloads for the
unweighted searches. -/
def visitedDeterminePath (vn : VisitedNodes) (final_vert : Entity) :
    Except InvalidPathError (GraphPath Unit) :=
  match determine_path (predProj vn) final_vert with
  | .ok vs => .ok (vs.map fun v => (v, ()))
  | .error e => .error e

/-- Modelled from the spec: the method form of the reconstruction used as
visited.determine_path(ent) by the unweighted searches. -/
def VisitedNodes.determine_path (vn : VisitedNodes) (final_vert : Entity) :
    Except InvalidPathError (GraphPath Unit) :=
  visitedDeterminePath vn final_vert

/-- Total number of neighbour slots of the store, bounding how many distinct
vertices can ever be discovered from them. -/
def nbrsSum (g : UGraph) : Nat := (g.map fun p => p.2.length).sum

/-- One more than the neighbour-slot count: an upper bound on the number of
entities a breadth-first visited map can hold (the start plus one per
neighbour slot). -/
def capBound (g : UGraph) : Nat := nbrsSum g + 1

/-- Fuel for the breadth-first loops: each iteration pops one queue entry,
and at most capBound entries are ever enqueued. -/
def bfsFuel (g : UGraph) : Nat := capBound g + 1

/-- The inner neighbour scan of the bfs loop (bfs.rs, lines 67-75): each
unvisited neighbour is recorded with its predecessor; if it is the stop
vertex the scan ends early with the updated map, otherwise the neighbour is
enqueued.  The stop vertex is `some end_ent` for bfs; `none` runs the scan
to completion (used by the first-discovery reference map). -/
def bfsScan (stop : Option Entity) (sv : Entity) :
    List Entity → List Entity → VisitedNodes → (List Entity × VisitedNodes) ⊕ VisitedNodes
  | [], q, vis => .inl (q, vis)
  | n :: rest, q, vis =>
    if vis.is_visited n then bfsScan stop sv rest q vis
    else
      let vis2 := vis.insert n sv 0 0
      if stop = some n then .inr vis2
      else bfsScan stop sv rest (q ++ [n]) vis2

/-- The while loop of bfs (bfs.rs, lines 64-76): pop the queue front, skip
it when absent from the store, otherwise scan its neighbours; finding the
end vertex reconstructs the path (the expect panics on a bad map), an empty
queue yields NoPath. -/
def bfsLoop (g : UGraph) (end_ent : Entity) :
    Nat → List Entity → VisitedNodes → RustOutcome (GraphPath Unit)
  | 0, _, _ => .panicked
  | _ + 1, [], _ => .err .noPath
  | fuel + 1, sv :: rest, vis =>
    match qget g sv with
    | none => bfsLoop g end_ent fuel rest vis
    | some ns =>
      match bfsScan (some end_ent) sv ns rest vis with
      | .inl (q2, vis2) => bfsLoop g end_ent fuel q2 vis2
      | .inr vis2 => expectOk (visitedDeterminePath vis2 end_ent)

/-- bfs (bfs.rs, lines 52-79): equal endpoints return the singleton path
before any store lookup; otherwise the breadth-first loop runs from the
start vertex. -/
def bfs (g : UGraph) (start_ent end_ent : Entity) : RustOutcome (GraphPath Unit) :=
  if start_ent = end_ent then .ok (GraphPath.single start_ent ())
  else bfsLoop g end_ent (bfsFuel g) [start_ent] (VisitedNodes.new_from_start start_ent)

/-- Modelled from the spec: the first-discovery breadth-first traversal of
section 4.1 run to exhaustion (FIFO frontier, each vertex enqueued and
assigned a predecessor at first discovery only), with no stopping vertex.
Its final visited map is the reference first-discovery predecessor
assignment against which the path returned by bfs is compared. -/
def bfsAllLoop (g : UGraph) : Nat → List Entity → VisitedNodes → VisitedNodes
  | 0, _, vis => vis
  | _ + 1, [], vis => vis
  | fuel + 1, sv :: rest, vis =>
    match qget g sv with
    | none => bfsAllLoop g fuel rest vis
    | some ns =>
      match bfsScan none sv ns rest vis with
      | .inl (q2, vis2) => bfsAllLoop g fuel q2 vis2
      | .inr vis2 => vis2

/-- Modelled from the spec: the predecessor each vertex receives at its
first discovery in the full breadth-first traversal from the start. -/
def discoveryMap (g : UGraph) (s : Entity) : List (Entity × Option Entity) :=
  predProj (bfsAllLoop g (bfsFuel g) [s] (VisitedNodes.new_from_start s))

/-- Fuel for the depth-first loop: every frame of the explicit stack is
popped at most once per cursor position, so the slot count squared (plus
slack) bounds the iterations of any run considered here. -/
def dfsFuel (g : UGraph) : Nat := (nbrsSum g + 2) * (nbrsSum g + 2)

/-- The while loop of dfs (dfs.rs, lines 61-76): pop a frame, take its next
unexamined neighbour (dropping exhausted frames), re-push the advanced
frame, then record and examine the neighbour, returning on the end vertex
and pushing a fresh frame for present neighbours. -/
def dfsLoop (g : UGraph) (end_ent : Entity) :
    Nat → List (Entity × List Entity × Nat) → VisitedNodes → RustOutcome (GraphPath Unit)
  | 0, _, _ => .panicked
  | _ + 1, [], _ => .err .noPath
  | fuel + 1, (ent, view, cur) :: stackRest, vis =>
    match view.get? cur with
    | none => dfsLoop g end_ent fuel stackRest vis
    | some nbr =>
      let stack2 := (ent, view, cur + 1) :: stackRest
      if vis.is_visited nbr then dfsLoop g end_ent fuel stack2 vis
      else
        let vis2 := vis.insert nbr ent 0 0
        if nbr = end_ent then expectOk (visitedDeterminePath vis2 end_ent)
        else
          match qget g nbr with
          | none => dfsLoop g end_ent fuel stack2 vis2
          | some nview => dfsLoop g end_ent fuel ((nbr, nview, 0) :: stack2) vis2

/-- dfs (dfs.rs, lines 49-80): the start vertex is looked up first (the ?
operator yields InvalidEntity), equal endpoints then return the singleton
path, otherwise the cursor-resuming depth-first loop runs. -/
def dfs (g : UGraph) (start_ent end_ent : Entity) : RustOutcome (GraphPath Unit) :=
  match qget g start_ent with
  | none => .err .invalidEntity
  | some sview =>
    if start_ent = end_ent then .ok (GraphPath.single start_ent ())
    else dfsLoop g end_ent (dfsFuel g) [(start_ent, sview, 0)] (VisitedNodes.new_from_start start_ent)

/-- The inner neighbour scan of bfs_computed_end (bfs.rs, lines 146-155):
fresh neighbours are recorded, but the data tested against the end
predicate and the vertex view enqueued both come from a lookup of the start
entity, exactly as the source does. -/
def bfsCeScan (g : UGraph) (dataFn : Entity → C) (pred : C → Bool) (start_ent sv : Entity)
    (step : Nat) :
    List Entity → List (Entity × List Entity × Nat) → VisitedNodes →
      (List (Entity × List Entity × Nat) × VisitedNodes) ⊕ (VisitedNodes × Entity)
  | [], q, vis => .inl (q, vis)
  | n :: rest, q, vis =>
    if vis.is_visited n then bfsCeScan g dataFn pred start_ent sv step rest q vis
    else
      let vis2 := vis.insert n sv (step + 1) 0
      match qget g start_ent with
      | none => bfsCeScan g dataFn pred start_ent sv step rest q vis2
      | some sview =>
        if pred (dataFn start_ent) then .inr (vis2, n)
        else bfsCeScan g dataFn pred start_ent sv step rest (q ++ [(n, sview, step + 1)]) vis2

/-- The while loop of bfs_computed_end (bfs.rs, lines 144-156). -/
def bfsCeLoop (g : UGraph) (dataFn : Entity → C) (pred : C → Bool) (start_ent : Entity) :
    Nat → List (Entity × List Entity × Nat) → VisitedNodes → RustOutcome (GraphPath Unit)
  | 0, _, _ => .panicked
  | _ + 1, [], _ => .err .noPath
  | fuel + 1, (ent, view, step) :: rest, vis =>
    match bfsCeScan g dataFn pred start_ent ent step view rest vis with
    | .inl (q2, vis2) => bfsCeLoop g dataFn pred start_ent fuel q2 vis2
    | .inr (vis2, n) => expectOk (visitedDeterminePath vis2 n)

/-- bfs_computed_end (bfs.rs, lines 127-159): the start vertex data is
tested before the loop; afterwards the loop discovers neighbours but tests
the predicate against the data of the start entity (the lookup at line 151
passes start_ent where the neighbour was evidently intended). -/
def bfs_computed_end (g : UGraph) (dataFn : Entity → C) (pred : C → Bool) (start_ent : Entity) :
    RustOutcome (GraphPath Unit) :=
  match qget g start_ent with
  | none => .err .invalidEntity
  | some sview =>
    if pred (dataFn start_ent) then .ok (GraphPath.single start_ent ())
    else
      bfsCeLoop g dataFn pred start_ent (bfsFuel g)
        [(start_ent, sview, 0)] (VisitedNodes.new_from_start start_ent)

/-- Pop the entry with minimal priority from the queue model (the first one
on ties); mirrors popping a PriorityQueue of Reverse-wrapped weights. -/
def pqPopMin [LinearOrder W] : List (Entity × W) → Option ((Entity × W) × List (Entity × W))
  | [] => none
  | x :: xs =>
    match pqPopMin xs with
    | none => some (x, [])
    | some (m, rest) => if x.2 ≤ m.2 then some (x, xs) else some (m, x :: rest)

/-- change_priority of the queue model: entries for the entity get the new
priority, an absent entity leaves the queue unchanged. -/
def pqChangePriority (q : List (Entity × W)) (v : Entity) (pr : W) : List (Entity × W) :=
  q.map fun p => if p.1 = v then (p.1, pr) else p

/-- Total number of weighted neighbour slots. -/
def wNbrsSum (g : WGraph W) : Nat := (g.map fun p => p.2.length).sum

/-- Fuel for the weighted loops: each entity is pushed at most once (only
at first discovery), so pops are bounded by the slot count plus the start. -/
def wFuel (g : WGraph W) : Nat := wNbrsSum g + 2

/-- The neighbour relaxation of dijkstra_search (dijkstra.rs, lines
85-108): a negative weight aborts with NegativeWeight; otherwise an
unvisited neighbour is recorded and pushed, and a visited one is updated
(predecessor, distance, queue priority) unless the candidate distance is
strictly larger. -/
def dijkstraScan [LinearOrder W] [AddZeroClass W] (sv : Entity) (svDist : W) :
    List (Entity × W) → List (Entity × Option Entity) → List (Entity × W) →
      List (Entity × W) →
      (List (Entity × Option Entity) × List (Entity × W) × List (Entity × W)) ⊕ GraphError
  | [], prev, dist, queue => .inl (prev, dist, queue)
  | (n, w) :: rest, prev, dist, queue =>
    if w < 0 then .inr .negativeWeight
    else
      let total := svDist + w
      match qget dist n with
      | some dcur =>
        if total > dcur then dijkstraScan sv svDist rest prev dist queue
        else
          dijkstraScan sv svDist rest (updAssoc prev n (some sv)) (updAssoc dist n total)
            (pqChangePriority queue n total)
      | none =>
        dijkstraScan sv svDist rest (prev ++ [(n, some sv)]) (dist ++ [(n, total)])
          (queue ++ [(n, total)])

/-- The while loop of dijkstra_search (dijkstra.rs, lines 75-109): pop the
minimal entry, return the reconstructed path at the end vertex (the unwrap
panics on a bad map), skip absent vertices, otherwise relax the
neighbours. -/
def dijkstraLoop [LinearOrder W] [AddZeroClass W] (g : WGraph W) (end_ent : Entity) :
    Nat → List (Entity × Option Entity) → List (Entity × W) → List (Entity × W) →
      RustOutcome (List Entity)
  | 0, _, _, _ => .panicked
  | fuel + 1, prev, dist, queue =>
    match pqPopMin queue with
    | none => .err .noPath
    | some ((sv, svDist), q2) =>
      if sv = end_ent then expectOk (determine_path prev sv)
      else
        match qget g sv with
        | none => dijkstraLoop g end_ent fuel prev dist q2
        | some ns =>
          match dijkstraScan sv svDist ns prev dist q2 with
          | .inl (prev2, dist2, q3) => dijkstraLoop g end_ent fuel prev2 dist2 q3
          | .inr e => .err e

/-- dijkstra_search (dijkstra.rs, lines 54-113): start and end are looked
up first (InvalidEntity on absence), then the relaxation loop runs from the
start at distance zero. -/
def dijkstra_search [LinearOrder W] [AddZeroClass W] (g : WGraph W) (start_ent end_ent : Entity) :
    RustOutcome (List Entity) :=
  match qget g start_ent with
  | none => .err .invalidEntity
  | some _ =>
    match qget g end_ent with
    | none => .err .invalidEntity
    | some _ =>
      dijkstraLoop g end_ent (wFuel g) [(start_ent, none)] [(start_ent, 0)] [(start_ent, 0)]

/-- The neighbour relaxation of a_star_search (astar.rs, lines 66-91): no
negative-weight check is performed; the minimal-distance table stores
(distance, heuristic) pairs, the queue is keyed by their sum, and the
heuristic of a fresh neighbour is computed from the popped vertex data and
the end data (hoisted here since both are fixed during one scan). -/
def aStarScan [LinearOrder W] [AddZeroClass W] (sv : Entity) (svDist hval : W) :
    List (Entity × W) → List (Entity × Option Entity) → List (Entity × (W × W)) →
      List (Entity × W) →
      List (Entity × Option Entity) × List (Entity × (W × W)) × List (Entity × W)
  | [], prev, dist, queue => (prev, dist, queue)
  | (n, w) :: rest, prev, dist, queue =>
    let total := svDist + w
    match qget dist n with
    | some dh =>
      if total > dh.1 then aStarScan sv svDist hval rest prev dist queue
      else
        aStarScan sv svDist hval rest (updAssoc prev n (some sv))
          (updAssoc dist n (total, dh.2)) (pqChangePriority queue n (total + dh.2))
    | none =>
      aStarScan sv svDist hval rest (prev ++ [(n, some sv)]) (dist ++ [(n, (total, hval))])
        (queue ++ [(n, total + hval)])

/-- The while loop of a_star_search (astar.rs, lines 53-92): pop ignoring
the stored priority, return the reconstructed path at the end vertex, skip
absent vertices, read the popped distance from the minimal-distance table
(the source unwraps; a default stands in for the impossible missing case),
then relax the neighbours. -/
def aStarLoop [LinearOrder W] [AddZeroClass W] (g : WGraph W) (dataFn : Entity → C)
    (end_ent : Entity) (endData : C) (heuF : C → C → W) :
    Nat → List (Entity × Option Entity) → List (Entity × (W × W)) → List (Entity × W) →
      RustOutcome (List Entity)
  | 0, _, _, _ => .panicked
  | fuel + 1, prev, dist, queue =>
    match pqPopMin queue with
    | none => .err .noPath
    | some ((sv, _), q2) =>
      if sv = end_ent then expectOk (determine_path prev sv)
      else
        match qget g sv with
        | none => aStarLoop g dataFn end_ent endData heuF fuel prev dist q2
        | some ns =>
          let svDist := ((qget dist sv).getD (0, 0)).1
          let hval := heuF (dataFn sv) endData
          match aStarScan sv svDist hval ns prev dist q2 with
          | (prev2, dist2, q3) => aStarLoop g dataFn end_ent endData heuF fuel prev2 dist2 q3

/-- a_star_search (astar.rs, lines 24-96): start and end are looked up
first (InvalidEntity on absence, the end lookup also supplying the end
data), then the guided loop runs; the per-vertex data of the query is
modelled by a total data function alongside the weighted adjacency. -/
def a_star_search [LinearOrder W] [AddZeroClass W] (g : WGraph W) (dataFn : Entity → C)
    (start_ent end_ent : Entity) (heuF : C → C → W) : RustOutcome (List Entity) :=
  match qget g start_ent with
  | none => .err .invalidEntity
  | some _ =>
    match qget g end_ent with
    | none => .err .invalidEntity
    | some _ =>
      aStarLoop g dataFn end_ent (dataFn end_ent) heuF (wFuel g)
        [(start_ent, none)] [(start_ent, (0, 0))] [(start_ent, 0)]

/-- The neighbour relaxation of within_distance (neighbourhood.rs, lines
116-138): a negative weight aborts; a candidate beyond the distance cap is
discarded; otherwise the same visited-update discipline as Dijkstra,
without predecessors. -/
def wdScan [LinearOrder W] [AddZeroClass W] (sv : Entity) (svDist maxDist : W) :
    List (Entity × W) → List (Entity × W) → List (Entity × W) →
      (List (Entity × W) × List (Entity × W)) ⊕ GraphError
  | [], dist, queue => .inl (dist, queue)
  | (n, w) :: rest, dist, queue =>
    if w < 0 then .inr .negativeWeight
    else
      let total := svDist + w
      if total > maxDist then wdScan sv svDist maxDist rest dist queue
      else
        match qget dist n with
        | some dcur =>
          if total > dcur then wdScan sv svDist maxDist rest dist queue
          else wdScan sv svDist maxDist rest (updAssoc dist n total) (pqChangePriority queue n total)
        | none => wdScan sv svDist maxDist rest (dist ++ [(n, total)]) (queue ++ [(n, total)])

/-- The while loop of within_distance (neighbourhood.rs, lines 110-139):
once the queue empties the collected (entity, distance) pairs are
returned. -/
def wdLoop [LinearOrder W] [AddZeroClass W] (g : WGraph W) (maxDist : W) :
    Nat → List (Entity × W) → List (Entity × W) → RustOutcome (List (Entity × W))
  | 0, _, _ => .panicked
  | fuel + 1, dist, queue =>
    match pqPopMin queue with
    | none => .ok dist
    | some ((sv, svDist), q2) =>
      match qget g sv with
      | none => wdLoop g maxDist fuel dist q2
      | some ns =>
        match wdScan sv svDist maxDist ns dist q2 with
        | .inl (dist2, q3) => wdLoop g maxDist fuel dist2 q3
        | .inr e => .err e

/-- within_distance (neighbourhood.rs, lines 93-142): the start is looked
up (InvalidEntity on absence), then the bounded expansion runs. -/
def within_distance [LinearOrder W] [AddZeroClass W] (g : WGraph W) (start_ent : Entity)
    (maxDist : W) : RustOutcome (List (Entity × W)) :=
  match qget g start_ent with
  | none => .err .invalidEntity
  | some _ => wdLoop g maxDist (wFuel g) [(start_ent, 0)] [(start_ent, 0)]

/-- Fuel for the layer-counting loops of within_steps. -/
def wsFuel (g : UGraph) : Nat := 2 * nbrsSum g + 4

/-- The inner neighbour scan of within_steps as compiled from
graph_functions/mod.rs (lines 199-207): a neighbour is marked seen first,
but the view pushed onto the queue comes from a lookup of the start entity
(the source passes start_ent where the neighbour was evidently intended);
the pair recorded in the output carries the neighbour itself. -/
def wsScan (g : UGraph) (start_ent : Entity) :
    List Entity → List Entity → List (List Entity) → List (Entity × Nat) → Nat →
      List Entity × List (List Entity) × List (Entity × Nat)
  | [], seen, toView, valid, _ => (seen, toView, valid)
  | nbr :: rest, seen, toView, valid, nextStep =>
    if seen.contains nbr then wsScan g start_ent rest seen toView valid nextStep
    else
      let seen2 := seen ++ [nbr]
      match qget g start_ent with
      | some sview => wsScan g start_ent rest seen2 (toView ++ [sview]) (valid ++ [(nbr, nextStep)]) nextStep
      | none => wsScan g start_ent rest seen2 toView valid nextStep

/-- The while loop of within_steps (graph_functions/mod.rs, lines 194-216):
pop a view, decrement the per-layer counter, scan the neighbours, and on a
layer boundary advance the step counter, stopping once it equals
max_steps. -/
def wsLoop (g : UGraph) (start_ent : Entity) (maxSteps : Nat) :
    Nat → List (List Entity) → List Entity → List (Entity × Nat) → Nat → Nat →
      List (Entity × Nat)
  | 0, _, _, valid, _, _ => valid
  | fuel + 1, toView, seen, valid, curStep, atCur =>
    match toView with
    | [] => valid
    | view :: rest =>
      let atCur2 := atCur - 1
      match wsScan g start_ent view seen rest valid (curStep + 1) with
      | (seen2, rest2, valid2) =>
        if atCur2 = 0 then
          if curStep + 1 = maxSteps then valid2
          else wsLoop g start_ent maxSteps fuel rest2 seen2 valid2 (curStep + 1) rest2.length
        else wsLoop g start_ent maxSteps fuel rest2 seen2 valid2 curStep atCur2

/-- within_steps (graph_functions/mod.rs, lines 173-218): the start is
looked up (InvalidEntity on absence), then the layer-by-layer loop runs
seeded with (start, 0). -/
def within_steps (g : UGraph) (start_ent : Entity) (maxSteps : Nat) :
    RustOutcome (List (Entity × Nat)) :=
  match qget g start_ent with
  | none => .err .invalidEntity
  | some sview =>
    .ok (wsLoop g start_ent maxSteps (wsFuel g) [sview] [start_ent] [(start_ent, 0)] 0 1)

/-- The inner neighbour scan of within_steps as written in
graph_functions/neighbourhood.rs (lines 57-65): identical to wsScan except
that the pushed view is obtained by looking up the neighbour itself. -/
def wsScanNb (g : UGraph) :
    List Entity → List Entity → List (List Entity) → List (Entity × Nat) → Nat →
      List Entity × List (List Entity) × List (Entity × Nat)
  | [], seen, toView, valid, _ => (seen, toView, valid)
  | nbr :: rest, seen, toView, valid, nextStep =>
    if seen.contains nbr then wsScanNb g rest seen toView valid nextStep
    else
      let seen2 := seen ++ [nbr]
      match qget g nbr with
      | some nview => wsScanNb g rest seen2 (toView ++ [nview]) (valid ++ [(nbr, nextStep)]) nextStep
      | none => wsScanNb g rest seen2 toView valid nextStep

/-- The while loop of within_steps from neighbourhood.rs (lines 52-74). -/
def wsLoopNb (g : UGraph) (maxSteps : Nat) :
    Nat → List (List Entity) → List Entity → List (Entity × Nat) → Nat → Nat →
      List (Entity × Nat)
  | 0, _, _, valid, _, _ => valid
  | fuel + 1, toView, seen, valid, curStep, atCur =>
    match toView with
    | [] => valid
    | view :: rest =>
      let atCur2 := atCur - 1
      match wsScanNb g view seen rest valid (curStep + 1) with
      | (seen2, rest2, valid2) =>
        if atCur2 = 0 then
          if curStep + 1 = maxSteps then valid2
          else wsLoopNb g maxSteps fuel rest2 seen2 valid2 (curStep + 1) rest2.length
        else wsLoopNb g maxSteps fuel rest2 seen2 valid2 curStep atCur2

/-- within_steps as written in graph_functions/neighbourhood.rs (lines
31-76), the draft whose neighbour lookup is correct. -/
def within_steps_nb (g : UGraph) (start_ent : Entity) (maxSteps : Nat) :
    RustOutcome (List (Entity × Nat)) :=
  match qget g start_ent with
  | none => .err .invalidEntity
  | some sview =>
    .ok (wsLoopNb g maxSteps (wsFuel g) [sview] [start_ent] [(start_ent, 0)] 0 1)

/-- Modelled from the spec: the cumulative cost of section 3, a count of
unknown-edge crossings ordered before the finite sum. -/
structure SpecPathWeight (W : Type) where
  infinite_crossings : Nat
  finite_sum : W
deriving DecidableEq, Repr

/-- Modelled from the spec: lexicographic comparison of path weights, fewer
crossings first, smaller finite sum on ties (section 3). -/
def SpecPathWeight.leB [LinearOrder W] (a b : SpecPathWeight W) : Bool :=
  if a.infinite_crossings = b.infinite_crossings then a.finite_sum ≤ b.finite_sum
  else a.infinite_crossings < b.infinite_crossings

/-- Modelled from the spec: the caller-supplied policy for a missing edge
weight (section 4.3): Impassable skips the edge, Infinity crosses it
counting an infinite crossing, Value(x) treats it as finite weight x. -/
inductive NoneValueResponse (W : Type) where
  | impassable
  | infinity
  | value (x : W)
deriving DecidableEq, Repr

/-- Store with optional edge weights, as traversed by the missing-weight
Dijkstra of main.rs. -/
abbrev WOGraph (W : Type) := List (Entity × List (Entity × Option W))

/-- Modelled from the spec: pop the minimal spec-weight entry. -/
def pqPopMinSpec [LinearOrder W] :
    List (Entity × SpecPathWeight W) →
      Option ((Entity × SpecPathWeight W) × List (Entity × SpecPathWeight W))
  | [] => none
  | x :: xs =>
    match pqPopMinSpec xs with
    | none => some (x, [])
    | some (m, rest) => if x.2.leB m.2 then some (x, xs) else some (m, x :: rest)

/-- Modelled from the spec: resolve the weight of one edge under the
missing-weight policy; a present negative weight is an error, Impassable
skips the edge, otherwise the crossing-aware sum of section 3 applies. -/
def nvrStep [LinearOrder W] [AddZeroClass W] (d : SpecPathWeight W) (w : Option W)
    (policy : NoneValueResponse W) : Option (SpecPathWeight W) ⊕ GraphError :=
  match w with
  | some x => if x < 0 then .inr .negativeWeight else .inl (some ⟨d.infinite_crossings, d.finite_sum + x⟩)
  | none =>
    match policy with
    | .impassable => .inl none
    | .infinity => .inl (some ⟨d.infinite_crossings + 1, d.finite_sum⟩)
    | .value x => if x < 0 then .inr .negativeWeight else .inl (some ⟨d.infinite_crossings, d.finite_sum + x⟩)

/-- Modelled from the spec: the neighbour relaxation of the missing-weight
Dijkstra (sections 4.3 and 7), following the relaxation discipline of
dijkstra.rs with the policy-resolved edge weight; per section 4.3 equal or
smaller candidate distances are ignored and the earlier predecessor is
retained. -/
def nvrScan [LinearOrder W] [AddZeroClass W] (policy : NoneValueResponse W) (sv : Entity)
    (svDist : SpecPathWeight W) :
    List (Entity × Option W) → List (Entity × Option Entity) →
      List (Entity × SpecPathWeight W) → List (Entity × SpecPathWeight W) →
      (List (Entity × Option Entity) × List (Entity × SpecPathWeight W) ×
        List (Entity × SpecPathWeight W)) ⊕ GraphError
  | [], prev, dist, queue => .inl (prev, dist, queue)
  | (n, w) :: rest, prev, dist, queue =>
    match nvrStep svDist w policy with
    | .inr e => .inr e
    | .inl none => nvrScan policy sv svDist rest prev dist queue
    | .inl (some total) =>
      match qget dist n with
      | some dcur =>
        if dcur.leB total then nvrScan policy sv svDist rest prev dist queue
        else
          nvrScan policy sv svDist rest (updAssoc prev n (some sv)) (updAssoc dist n total)
            (queue.map fun p => if p.1 = n then (p.1, total) else p)
      | none =>
        nvrScan policy sv svDist rest (prev ++ [(n, some sv)]) (dist ++ [(n, total)])
          (queue ++ [(n, total)])

/-- Modelled from the spec: the loop of the missing-weight Dijkstra; on
popping the end vertex the destination-to-source path is rebuilt and each
vertex is paired with its recorded cumulative distance (GraphPath with
distance payloads, section 3). -/
def nvrLoop [LinearOrder W] [AddZeroClass W] (g : WOGraph W) (end_ent : Entity)
    (policy : NoneValueResponse W) :
    Nat → List (Entity × Option Entity) → List (Entity × SpecPathWeight W) →
      List (Entity × SpecPathWeight W) → RustOutcome (GraphPath (SpecPathWeight W))
  | 0, _, _, _ => .panicked
  | fuel + 1, prev, dist, queue =>
    match pqPopMinSpec queue with
    | none => .err .noPath
    | some ((sv, svDist), q2) =>
      if sv = end_ent then
        match determine_path prev sv with
        | .ok vs => .ok (vs.map fun v => (v, (qget dist v).getD ⟨0, 0⟩))
        | .error _ => .panicked
      else
        match qget g sv with
        | none => nvrLoop g end_ent policy fuel prev dist q2
        | some ns =>
          match nvrScan policy sv svDist ns prev dist q2 with
          | .inl (prev2, dist2, q3) => nvrLoop g end_ent policy fuel prev2 dist2 q3
          | .inr e => .err e

/-- Total slot count of an optional-weight store. -/
def woNbrsSum (g : WOGraph W) : Nat := (g.map fun p => p.2.length).sum

/-- Modelled from the spec: dijkstra_search with a missing-edge-weight
policy, the variant invoked by main.rs (lines 26-27) whose definition is
not part of src; assembled from the spec account of the Dijkstra family
(section 4.3) on the structure of dijkstra.rs. -/
def dijkstra_search_nvr [LinearOrder W] [AddZeroClass W] (g : WOGraph W)
    (start_ent end_ent : Entity) (policy : NoneValueResponse W) :
    RustOutcome (GraphPath (SpecPathWeight W)) :=
  match qget g start_ent with
  | none => .err .invalidEntity
  | some _ =>
    match qget g end_ent with
    | none => .err .invalidEntity
    | some _ =>
      nvrLoop g end_ent policy (woNbrsSum g + 2)
        [(start_ent, none)] [(start_ent, ⟨0, 0⟩)] [(start_ent, ⟨0, 0⟩)]

/-- The keys of a visited map, in discovery order. -/
def visKeys (vn : VisitedNodes) : List Entity := vn.entries.map Prod.fst

/-- All neighbour slots of the store, concatenated. -/
def allNbrs (g : UGraph) : List Entity := (g.map fun p => p.2).join

/-- One directed edge of the store: the target appears in the neighbour
list of a present source vertex. -/
def edgeB (g : UGraph) (u v : Entity) : Bool :=
  match qget g u with
  | some ns => ns.contains v
  | none => false

/-- Existence of a walk with exactly n edges from the start to the given
vertex, each edge leaving a present vertex. -/
def reachesInB (g : UGraph) (s : Entity) : Nat → Entity → Bool
  | 0, v => v = s
  | n + 1, v => g.any fun p => reachesInB g s n p.1 && p.2.contains v

/-- A reverse path: walking the list from its head, every element is
reached from its successor by one store edge. -/
def revChainB (g : UGraph) : List Entity → Bool
  | [] => true
  | [_] => true
  | a :: b :: rest => edgeB g b a && revChainB g (b :: rest)

/-- The list follows a predecessor map: every element maps to its
successor, and the final element maps to the absent predecessor. -/
def chainFollowsB (m : List (Entity × Option Entity)) : List Entity → Bool
  | [] => false
  | [a] => decide (qget m a = some none)
  | a :: b :: rest => decide (qget m a = some (some b)) && chainFollowsB m (b :: rest)

/-- Whether following predecessors from the vertex reaches a root (an entry
whose predecessor is absent) within the given number of steps, with every
lookup succeeding along the way. -/
def rootIn (m : List (Entity × Option Entity)) : Nat → Entity → Bool
  | 0, _ => false
  | k + 1, v =>
    match qget m v with
    | none => false
    | some none => true
    | some (some u) => rootIn m k u

/-- Every edge weight of the store is non-negative. -/
def wNonnegB [LinearOrder W] [Zero W] (g : WGraph W) : Bool :=
  g.all fun p => p.2.all fun q => decide (0 ≤ q.2)

/-- The graph of the failing input for the Dijkstra optimality claim: a
start 0, a zero-weight pair 1 and 2, and the end 3, all weights
non-negative. -/
def exDijkstraCycle : WGraph Int :=
  [(0, [(1, 1)]), (1, [(2, 0), (3, 5)]), (2, [(1, 0), (3, 5)]), (3, [])]

/-- A single negative edge from 0 to 1. -/
def exNegEdge : WGraph Int := [(0, [(1, -1)]), (1, [])]

/-- A store whose only vertex 0 has an edge to the absent entity 2. -/
def exDfsAbsentEnd : UGraph := [(0, [2])]

/-- A two-vertex store with the single edge 0 to 1. -/
def exTwoVert : UGraph := [(0, [1]), (1, [])]

/-- A single unknown-weight edge from 0 to 1. -/
def exUnknownEdge : WOGraph Int := [(0, [(1, none)]), (1, [])]

/-- A three-vertex weighted store where the two-hop route 0-1-2 is cheaper
than the direct edge. -/
def exWeighted : WGraph Int := [(0, [(1, 2), (2, 5)]), (1, [(2, 1)]), (2, [])]

/-- A predecessor map holding a two-cycle between 0 and 1. -/
def exCycleMap : List (Entity × Option Entity) := [(0, some 1), (1, some 0)]

/-- The minimal-distance table of a_star_search corresponding to a Dijkstra
table: every entry carries the heuristic zero alongside its distance. -/
def distToH [Zero W] (dist : List (Entity × W)) : List (Entity × (W × W)) :=
  dist.map fun p => (p.1, (p.2, 0))

/-- The loop invariant of the breadth-first search of bfs.rs, relating a
loop state (the processed vertices proc, the pending queue q and the
visited map vis) to a discovery-depth assignment D.  It asserts the
first-in-first-out layer discipline: the visited keys are exactly
proc ++ q in discovery order, depths are non-decreasing along them and
every visited vertex is within one layer of the queue head, processed
vertices have all neighbours visited one layer down at most, every visited
vertex carries a predecessor chain of its exact depth walking real store
edges back to the start, depth never exceeds the length of any walk from
the start, every vertex reachable strictly below the queue head layer is
already processed, the end vertex is still undiscovered, and the remaining
fuel covers the worst-case number of iterations. -/
structure BfsInv (g : UGraph) (s e : Entity) (D : Entity → Nat) (proc q : List Entity)
    (vis : VisitedNodes) (fuel : Nat) : Prop where
  keys_eq : visKeys vis = proc ++ q
  keys_nodup : (visKeys vis).Nodup
  s_state : s ∈ proc ∨ (proc = [] ∧ q = [s])
  ds_zero : D s = 0
  mono : (visKeys vis).Pairwise fun a b => D a ≤ D b
  last_head : ∀ hd, q.head? = some hd → ∀ v ∈ visKeys vis, D v ≤ D hd + 1
  closure : ∀ u ∈ proc, ∀ ns, qget g u = some ns → ∀ v ∈ ns, v ∈ visKeys vis ∧ D v ≤ D u + 1
  dopt : ∀ x n, reachesInB g s n x = true → x ∈ visKeys vis → D x ≤ n
  front : ∀ x n, reachesInB g s n x = true →
    (∀ hd, q.head? = some hd → n < D hd) → x ∈ proc
  chains : ∀ v ∈ visKeys vis, ∃ t, chainFollowsB (predProj vis) (v :: t) = true ∧
    t.length = D v ∧ revChainB g (v :: t) = true ∧ (v :: t).getLast? = some s ∧
    t.length + 1 ≤ (visKeys vis).length
  no_e : e ∉ visKeys vis
  fuel_ok : q.length + capBound g ≤ fuel + (visKeys vis).length

/-- The discovery-depth assignment after scanning the popped vertex:
already visited vertices keep their depth, the fresh discoveries sit one
layer past the popped vertex. -/
def bumpD (vis : VisitedNodes) (D : Entity → Nat) (dsv : Nat) : Entity → Nat :=
  fun v => if (qget vis.entries v).isSome then D v else dsv + 1

/-- Helper for claim C3: the Dijkstra relaxation aborts with NegativeWeight
whenever the scanned neighbour list holds a negative finite weight. -/
theorem dijkstraScan_neg [LinearOrder W] [AddZeroClass W] (sv : Entity) (svDist : W) :
    ∀ (ns : List (Entity × W)) prev dist queue, (∃ p ∈ ns, p.2 < 0) →
      dijkstraScan sv svDist ns prev dist queue = .inr .negativeWeight := by
  intro ns
  induction ns with
  | nil => intro _ _ _ h; simp at h
  | cons hd rest ih =>
    intro prev dist queue h
    obtain ⟨p, hp, hneg⟩ := h
    by_cases hw : hd.2 < 0
    · simp only [dijkstraScan, hw, if_pos]
    · have hrest : ∃ p ∈ rest, p.2 < 0 := by
        rcases List.mem_cons.mp hp with rfl | hmem
        · exact absurd hneg hw
        · exact ⟨p, hmem, hneg⟩
      simp only [dijkstraScan, hw, if_neg, if_false]
      rcases hq : qget dist hd.1 with _ | dcur
      · simp only [hq]
        exact ih _ _ _ hrest
      · simp only [hq]
        by_cases hcmp : svDist + hd.2 > dcur
        · simp only [hcmp, ite_true]
          exact ih _ _ _ hrest
        · simp only [hcmp, ite_false]
          exact ih _ _ _ hrest

/-- Helper for claim C3: the within_distance relaxation aborts with
NegativeWeight under the same condition. -/
theorem wdScan_neg [LinearOrder W] [AddZeroClass W] (sv : Entity) (svDist maxDist : W) :
    ∀ (ns : List (Entity × W)) dist queue, (∃ p ∈ ns, p.2 < 0) →
      wdScan sv svDist maxDist ns dist queue = .inr .negativeWeight := by
  intro ns
  induction ns with
  | nil => intro _ _ h; simp at h
  | cons hd rest ih =>
    intro dist queue h
    obtain ⟨p, hp, hneg⟩ := h
    by_cases hw : hd.2 < 0
    · simp only [wdScan, hw, if_pos]
    · have hrest : ∃ p ∈ rest, p.2 < 0 := by
        rcases List.mem_cons.mp hp with rfl | hmem
        · exact absurd hneg hw
        · exact ⟨p, hmem, hneg⟩
      simp only [wdScan, hw, if_neg, if_false]
      by_cases hcap : svDist + hd.2 > maxDist
      · simp only [hcap, ite_true]
        exact ih _ _ hrest
      · simp only [hcap, ite_false]
        rcases hq : qget dist hd.1 with _ | dcur
        · simp only [hq]
          exact ih _ _ hrest
        · simp only [hq]
          by_cases hcmp : svDist + hd.2 > dcur
          · simp only [hcmp, ite_true]
            exact ih _ _ hrest
          · simp only [hcmp, ite_false]
            exact ih _ _ hrest

/-- Claim C2: the claim states that for every finite graph with
non-negative edge weights and end reachable from start, dijkstra_search
returns Ok with a path of minimal summed weight.  The code violates this:
on the store exDijkstraCycle (all weights non-negative, end 3 reachable
from start 0 at total weight 6) the equal-distance relaxation re-points the
predecessors of the zero-weight pair 1 and 2 at each other, and the unwrap
on the path reconstruction panics instead of returning the minimal path. -/
theorem dijkstra_equal_distance_pred_cycle_panics :
    dijkstra_search exDijkstraCycle 0 3 = .panicked ∧
    wNonnegB exDijkstraCycle = true ∧
    (∃ p ∈ exDijkstraCycle, p.1 = 3) := by
  refine ⟨by decide, by decide, by decide⟩

/-- Counterexample for claim C3: a_star_search performs no negative-weight
check, so with the always-zero heuristic on the single negative edge it
returns an Ok path instead of Err(NegativeWeight). -/
theorem a_star_negative_weight_ok_counterexample :
    a_star_search exNegEdge (fun _ => ()) 0 1 (fun _ _ => 0) = .ok [1, 0] ∧
    a_star_search exNegEdge (fun _ => ()) 0 1 (fun _ _ => 0) ≠ .err .negativeWeight := by
  refine ⟨by decide, by decide⟩

/-- Claim C3 (amended): dijkstra_search and within_distance abort with
NegativeWeight whenever the neighbour scan of a popped vertex meets a
finite edge weight strictly below zero; a_star_search performs no such
check (see the counterexample). -/
theorem negative_weight_abort_dijkstra_within_distance
    [LinearOrder W] [AddZeroClass W] (sv : Entity) (svDist maxDist : W)
    (ns : List (Entity × W)) (prev : List (Entity × Option Entity))
    (dist queue dist2 queue2 : List (Entity × W))
    (h : ∃ p ∈ ns, p.2 < 0) :
    dijkstraScan sv svDist ns prev dist queue = .inr .negativeWeight ∧
    wdScan sv svDist maxDist ns dist2 queue2 = .inr .negativeWeight :=
  ⟨dijkstraScan_neg sv svDist ns prev dist queue h,
   wdScan_neg sv svDist maxDist ns dist2 queue2 h⟩

/-- Witness for claim C3 at a concrete negative edge. -/
theorem negative_weight_abort_dijkstra_within_distance_witness :
    (∃ p ∈ [((1 : Entity), (-1 : Int))], p.2 < 0) ∧
    (dijkstraScan 0 0 [((1 : Entity), (-1 : Int))] [] [] [] = .inr .negativeWeight ∧
      wdScan 0 0 10 [((1 : Entity), (-1 : Int))] [] [] = .inr .negativeWeight) :=
  ⟨by decide,
   negative_weight_abort_dijkstra_within_distance 0 0 10 [(1, -1)] [] [] [] [] [] (by decide)⟩

/-- Claim C4: the claim states that all four fixed-endpoint searches return
Err(InvalidEntity) immediately when start or end is absent.  The code
violates this for bfs and dfs: bfs never looks the endpoints up (an absent
start yields NoPath on the empty store), and dfs never looks the end up (an
edge to the absent entity 2 yields an Ok path). -/
theorem invalid_entity_checks_missing_eval :
    bfs [] 0 1 = .err .noPath ∧
    qget exDfsAbsentEnd 2 = none ∧
    dfs exDfsAbsentEnd 0 2 = .ok [(2, ()), (0, ())] := by
  refine ⟨by decide, by decide, by decide⟩

/-- Claim C5: the claim states within_steps(start, 0) returns exactly
[(start, 0)].  The code violates this: the stop test compares the layer
index with max_steps only after incrementing it, so a zero bound never
fires, and on the store 0 -> 1 both drafts of within_steps return the
neighbour at step 1 as well. -/
theorem within_steps_zero_eval :
    within_steps exTwoVert 0 0 = .ok [(0, 0), (1, 1)] ∧
    within_steps_nb exTwoVert 0 0 = .ok [(0, 0), (1, 1)] := by
  refine ⟨by decide, by decide⟩

/-- Claim C6: the claim (following the corrected section 4 semantics)
states that bfs_computed_end terminates at the first vertex in discovery
order whose own data satisfies the predicate.  The code violates this: it
tests the start data for every neighbour, so on the store 0 -> 1 whose
vertex 1 satisfies the predicate and is reachable in one step it returns
NoPath instead of the path to 1. -/
theorem bfs_computed_end_start_data_eval :
    bfs_computed_end exTwoVert (fun e => decide (e = 1)) (fun c => c) 0 = .err .noPath ∧
    decide ((1 : Entity) = 1) = true ∧
    reachesInB exTwoVert 0 1 1 = true := by
  refine ⟨by decide, by decide, by decide⟩

/-- Claim C9: on the single unknown-weight edge 0 -> 1, the spec-modelled
missing-weight Dijkstra yields NoPath under the Impassable policy and the
reverse path [1, 0] at cumulative distance zero under the Value(0) policy. -/
theorem dijkstra_none_value_response_scenario :
    dijkstra_search_nvr exUnknownEdge 0 1 .impassable = .err .noPath ∧
    dijkstra_search_nvr exUnknownEdge 0 1 (.value 0) =
      .ok [(1, ⟨0, 0⟩), (0, ⟨0, 0⟩)] := by
  refine ⟨by decide, by decide⟩

/-- Claim C10: bfs with equal start and end returns the singleton path
before any store lookup, on every store and entity, while dfs looks the
start up first and reports an absent entity. -/
theorem bfs_dfs_start_eq_end_lookup (g : UGraph) (e : Entity) :
    bfs g e e = .ok (GraphPath.single e ()) ∧
    (qget g e = none → dfs g e e = .err .invalidEntity) := by
  constructor
  · simp [bfs]
  · intro h
    simp [dfs, h]

/-- Witness for claim C10 on the empty store, where the entity is absent. -/
theorem bfs_dfs_start_eq_end_lookup_witness :
    qget ([] : UGraph) 5 = none ∧
    (bfs ([] : UGraph) 5 5 = .ok (GraphPath.single 5 ()) ∧
      dfs ([] : UGraph) 5 5 = .err .invalidEntity) :=
  ⟨rfl, (bfs_dfs_start_eq_end_lookup [] 5).1, (bfs_dfs_start_eq_end_lookup [] 5).2 rfl⟩

/-- Helper for claim C7: a successful chain follow extends the accumulated
path by a predecessor chain of the final accumulated vertex, and the result
stays within the length cap. -/
theorem followChain_ok_aux (m : List (Entity × Option Entity)) (maxLen : Nat) :
    ∀ (k : Nat) (cur : Option Entity) (z : Entity) (q : List Entity) (p : List Entity),
      qget m z = some cur →
      followChain m maxLen k cur (q ++ [z]) = .ok p →
      ∃ t, p = q ++ [z] ++ t ∧ chainFollowsB m (z :: t) = true ∧
        p.length ≤ max (q.length + 1) maxLen := by
  intro k
  induction k with
  | zero =>
    intro cur z q p hz hrun
    cases cur with
    | none =>
      simp only [followChain] at hrun
      refine ⟨[], ?_, ?_, ?_⟩
      · simpa using hrun.symm
      · simp [chainFollowsB, hz]
      · cases hrun
        simp [le_max_iff]
    | some pn =>
      simp only [followChain] at hrun
      exact Except.noConfusion hrun
  | succ k ih =>
    intro cur z q p hz hrun
    cases cur with
    | none =>
      simp only [followChain] at hrun
      refine ⟨[], ?_, ?_, ?_⟩
      · simpa using hrun.symm
      · simp [chainFollowsB, hz]
      · cases hrun
        simp [le_max_iff]
    | some pn =>
      simp only [followChain] at hrun
      rcases hq : qget m pn with _ | nxt
      · simp only [hq] at hrun
        exact Except.noConfusion hrun
      · simp only [hq] at hrun
        by_cases hlen : (q ++ [z]).length + 1 > maxLen
        · simp only [if_pos hlen] at hrun
          exact Except.noConfusion hrun
        · simp only [if_neg hlen] at hrun
          obtain ⟨t, hp, hchain, hlen2⟩ := ih nxt pn (q ++ [z]) p hq hrun
          have hcap : (q ++ [z]).length + 1 ≤ maxLen := by omega
          refine ⟨pn :: t, ?_, ?_, ?_⟩
          · simpa using hp
          · cases t with
            | nil =>
              simp only [chainFollowsB, Bool.and_eq_true, decide_eq_true_eq] at hchain ⊢
              exact ⟨hz, hchain⟩
            | cons b t2 =>
              simp only [chainFollowsB, Bool.and_eq_true] at hchain ⊢
              exact ⟨by simp [hz], hchain⟩
          · exact (hlen2.trans (max_le hcap le_rfl)).trans (le_max_right _ _)

/-- Helper for claim C7: a predecessor chain witnesses that the root is
reached within one more step than the chain length. -/
theorem chainFollowsB_rootIn (m : List (Entity × Option Entity)) :
    ∀ (t : List Entity) (z : Entity), chainFollowsB m (z :: t) = true →
      rootIn m (t.length + 1) z = true := by
  intro t
  induction t with
  | nil =>
    intro z h
    simp only [chainFollowsB, decide_eq_true_eq] at h
    simp [rootIn, h]
  | cons b t2 ih =>
    intro z h
    simp only [chainFollowsB, Bool.and_eq_true, decide_eq_true_eq] at h
    obtain ⟨h1, h2⟩ := h
    have := ih b h2
    simp only [rootIn, h1, List.length_cons]
    simpa using this

/-- Helper for claim C7: reaching the root within k steps also holds for
any larger bound. -/
theorem rootIn_mono (m : List (Entity × Option Entity)) :
    ∀ (k k2 : Nat) (v : Entity), rootIn m k v = true → k ≤ k2 → rootIn m k2 v = true := by
  intro k
  induction k with
  | zero => intro k2 v h; simp [rootIn] at h
  | succ k ih =>
    intro k2 v h hle
    obtain ⟨k3, rfl⟩ : ∃ k3, k2 = k3 + 1 := ⟨k2 - 1, by omega⟩
    simp only [rootIn] at h ⊢
    rcases hq : qget m v with _ | w
    · rw [hq] at h; cases h
    · rw [hq] at h
      cases w with
      | none => rfl
      | some u => exact ih k3 u h (by omega)

/-- Claim C7: a successful determine_path returns the predecessor chain of
the final vertex, of length at most the map size plus one (so the loop
makes at most that many chain-following steps), and whenever no
predecessor-root is reachable from the final vertex within the map size
(a cycle, or a predecessor absent from the keys) it returns
InvalidPathError instead of looping or returning a path. -/
theorem determine_path_cycle_safe :
    (∀ (m : List (Entity × Option Entity)) (v : Entity) (p : List Entity),
        determine_path m v = .ok p →
          p.head? = some v ∧ chainFollowsB m p = true ∧ p.length ≤ m.length + 1) ∧
    (∀ (m : List (Entity × Option Entity)) (v : Entity),
        rootIn m (m.length + 1) v = false → determine_path m v = .error ⟨⟩) := by
  have hok : ∀ (m : List (Entity × Option Entity)) (v : Entity) (p : List Entity),
      determine_path m v = .ok p →
        p.head? = some v ∧ chainFollowsB m p = true ∧ p.length ≤ m.length + 1 := by
    intro m v p hrun
    unfold determine_path at hrun
    rcases hq : qget m v with _ | tf
    · rw [hq] at hrun; cases hrun
    · rw [hq] at hrun
      have h0 : ([] : List Entity) ++ [v] = [v] := rfl
      obtain ⟨t, hp, hchain, hlen⟩ :=
        followChain_ok_aux m m.length (m.length + 2) tf v [] p hq (by simpa using hrun)
      simp only [List.nil_append] at hp
      subst hp
      refine ⟨rfl, hchain, ?_⟩
      rcases le_max_iff.mp hlen with h1 | h1 <;> simp_all <;> omega
  constructor
  · exact hok
  · intro m v hroot
    cases hrun : determine_path m v with
    | error e => cases e; rfl
    | ok p =>
      exfalso
      obtain ⟨hhead, hchain, hlen⟩ := hok m v p hrun
      cases p with
      | nil => cases hhead
      | cons z t =>
        have hz : z = v := by simpa using hhead
        subst hz
        have hr := chainFollowsB_rootIn m t z hchain
        have : rootIn m (m.length + 1) z = true := by
          refine rootIn_mono m (t.length + 1) (m.length + 1) z hr ?_
          simp only [List.length_cons] at hlen
          omega
        rw [this] at hroot
        cases hroot

/-- Witness for claim C7: a two-entry acyclic map yields its chain, and the
two-cycle map yields InvalidPathError. -/
theorem determine_path_cycle_safe_witness :
    (([0, 1] : List Entity).head? = some 0 ∧
      chainFollowsB [(0, some 1), (1, none)] [0, 1] = true ∧
      ([0, 1] : List Entity).length ≤ ([(0, some 1), (1, none)] : List (Entity × Option Entity)).length + 1) ∧
    (rootIn exCycleMap (exCycleMap.length + 1) 0 = false ∧
      determine_path exCycleMap 0 = .error ⟨⟩) :=
  ⟨determine_path_cycle_safe.1 [(0, some 1), (1, none)] 0 [0, 1] (by rfl),
   ⟨by decide, determine_path_cycle_safe.2 exCycleMap 0 (by decide)⟩⟩

/-- Lookup distributes over append: the left list is consulted first. -/
theorem qget_append (l1 l2 : List (Nat × α)) (k : Nat) :
    qget (l1 ++ l2) k = ((qget l1 k).rec (qget l2 k) fun v => some v) := by
  induction l1 with
  | nil => simp [qget]
  | cons hd tl ih =>
    by_cases h : hd.1 = k
    · simp [qget, h]
    · simp [qget, h, ih]

/-- Lookup after an update at the same present key yields the new value. -/
theorem qget_updAssoc_self (l : List (Nat × α)) (k : Nat) (v : α) :
    (qget l k).isSome → qget (updAssoc l k v) k = some v := by
  induction l with
  | nil => simp [qget]
  | cons hd tl ih =>
    obtain ⟨a, b⟩ := hd
    by_cases h : a = k
    · simp [qget, updAssoc, h]
    · simp only [qget, updAssoc, h, if_false, ite_false]
      exact ih

/-- Lookup after an update at a different key is unchanged. -/
theorem qget_updAssoc_other (l : List (Nat × α)) (k k2 : Nat) (v : α) (h : k2 ≠ k) :
    qget (updAssoc l k v) k2 = qget l k2 := by
  induction l with
  | nil => simp [qget, updAssoc]
  | cons hd tl ih =>
    obtain ⟨a, b⟩ := hd
    by_cases h2 : a = k
    · have h3 : ¬ a = k2 := by omega
      simp only [updAssoc, if_pos h2, qget, if_neg h3]
      exact ih
    · by_cases h3 : a = k2
      · simp only [updAssoc, if_neg h2, qget, if_pos h3]
      · simp only [updAssoc, if_neg h2, qget, if_neg h3]
        exact ih

/-- Lookup in the zero-heuristic table pairs the distance with zero. -/
theorem qget_distToH [Zero W] (dist : List (Entity × W)) (k : Nat) :
    qget (distToH dist) k = (qget dist k).rec none fun d => some (d, (0 : W)) := by
  induction dist with
  | nil => simp [qget, distToH]
  | cons hd tl ih =>
    obtain ⟨a, b⟩ := hd
    by_cases h : a = k
    · simp [qget, distToH, h]
    · simpa [qget, distToH, h] using ih

/-- Updating the zero-heuristic table with a zero-paired value mirrors
updating the distance table. -/
theorem updAssoc_distToH [Zero W] (dist : List (Entity × W)) (k : Nat) (v : W) :
    updAssoc (distToH dist) k (v, 0) = distToH (updAssoc dist k v) := by
  induction dist with
  | nil => simp [updAssoc, distToH]
  | cons hd tl ih =>
    obtain ⟨a, b⟩ := hd
    by_cases h : a = k
    · show updAssoc ((a, (b, 0)) :: distToH tl) k (v, 0) = distToH (updAssoc ((a, b) :: tl) k v)
      simp only [updAssoc, if_pos h]
      show _ = (a, (v, 0)) :: distToH (updAssoc tl k v)
      rw [ih]
    · show updAssoc ((a, (b, 0)) :: distToH tl) k (v, 0) = distToH (updAssoc ((a, b) :: tl) k v)
      simp only [updAssoc, if_neg h]
      show _ = (a, (b, 0)) :: distToH (updAssoc tl k v)
      rw [ih]

/-- The popped entry belongs to the queue and the remainder is made of
queue entries. -/
theorem pqPopMin_mem [LinearOrder W] :
    ∀ (q : List (Entity × W)) (x : Entity × W) (rest : List (Entity × W)),
      pqPopMin q = some (x, rest) → x ∈ q ∧ ∀ y ∈ rest, y ∈ q := by
  intro q
  induction q with
  | nil => intro x rest h; simp [pqPopMin] at h
  | cons hd tl ih =>
    intro x rest h
    simp only [pqPopMin] at h
    rcases h2 : pqPopMin tl with _ | pr
    · rw [h2] at h
      simp only [Option.some.injEq, Prod.mk.injEq] at h
      obtain ⟨rfl, rfl⟩ := h
      exact ⟨List.mem_cons_self _ _, by simp⟩
    · obtain ⟨m, mrest⟩ := pr
      rw [h2] at h
      simp only at h
      obtain ⟨hm, hrest⟩ := ih m mrest h2
      by_cases hle : hd.2 ≤ m.2
      · rw [if_pos hle] at h
        simp only [Option.some.injEq, Prod.mk.injEq] at h
        obtain ⟨rfl, rfl⟩ := h
        exact ⟨List.mem_cons_self _ _, fun y hy => List.mem_cons_of_mem _ hy⟩
      · rw [if_neg hle] at h
        simp only [Option.some.injEq, Prod.mk.injEq] at h
        obtain ⟨rfl, rfl⟩ := h
        refine ⟨List.mem_cons_of_mem _ hm, fun y hy => ?_⟩
        rcases List.mem_cons.mp hy with rfl | hy2
        · exact List.mem_cons_self _ _
        · exact List.mem_cons_of_mem _ (hrest y hy2)

/-- A successful lookup exhibits a store entry. -/
theorem qget_mem (l : List (Nat × α)) (k : Nat) (v : α) :
    qget l k = some v → (k, v) ∈ l := by
  induction l with
  | nil => simp [qget]
  | cons hd tl ih =>
    intro h
    obtain ⟨a, b⟩ := hd
    by_cases h2 : a = k
    · simp only [qget, if_pos h2] at h
      injection h with h
      subst h
      subst h2
      exact List.mem_cons_self _ _
    · simp only [qget, if_neg h2] at h
      exact List.mem_cons_of_mem _ (ih h)

/-- Non-negativity of the store gives non-negativity of any looked-up
neighbour list. -/
theorem wNonnegB_qget [LinearOrder W] [Zero W] (g : WGraph W) (k : Nat)
    (ns : List (Entity × W)) (hg : wNonnegB g = true) (h : qget g k = some ns) :
    ∀ p ∈ ns, ¬ p.2 < 0 := by
  intro p hp
  have hmem := qget_mem g k ns h
  simp only [wNonnegB, List.all_eq_true, decide_eq_true_eq] at hg
  exact not_lt.mpr (hg (k, ns) hmem p hp)

/-- Helper for claim C8: with non-negative weights and the zero heuristic,
one neighbour scan of a_star_search performs exactly the Dijkstra
relaxation: the scans return corresponding states, and every queue entry
keeps carrying its recorded distance. -/
theorem scan_correspond [LinearOrder W] [AddZeroClass W] (sv : Entity) (svDist : W) :
    ∀ (ns : List (Entity × W)) (prev : List (Entity × Option Entity)) (dist q : List (Entity × W)),
      (∀ p ∈ ns, ¬ p.2 < 0) →
      (∀ pr ∈ q, qget dist pr.1 = some pr.2) →
      ∃ prev2 dist2 q3,
        dijkstraScan sv svDist ns prev dist q = .inl (prev2, dist2, q3) ∧
        aStarScan sv svDist 0 ns prev (distToH dist) q = (prev2, distToH dist2, q3) ∧
        (∀ pr ∈ q3, qget dist2 pr.1 = some pr.2) := by
  intro ns
  induction ns with
  | nil =>
    intro prev dist q _ halign
    exact ⟨prev, dist, q, rfl, rfl, halign⟩
  | cons hd rest ih =>
    intro prev dist q hnn halign
    obtain ⟨n, w⟩ := hd
    have hw : ¬ w < 0 := hnn (n, w) (List.mem_cons_self _ _)
    have hrest : ∀ p ∈ rest, ¬ p.2 < 0 := fun p hp => hnn p (List.mem_cons_of_mem _ hp)
    simp only [dijkstraScan, aStarScan, if_neg hw]
    rcases hq : qget dist n with _ | dcur
    · have hqh : qget (distToH dist) n = none := by rw [qget_distToH, hq]
      simp only [hq, hqh, add_zero]
      have halign2 : ∀ pr ∈ q ++ [(n, svDist + w)],
          qget (dist ++ [(n, svDist + w)]) pr.1 = some pr.2 := by
        intro pr hpr
        rcases List.mem_append.mp hpr with hpr | hpr
        · have := halign pr hpr
          rw [qget_append, this]
        · simp only [List.mem_singleton] at hpr
          subst hpr
          rw [qget_append, hq]
          simp [qget]
      obtain ⟨p2, d2, q3, h1, h2, h3⟩ :=
        ih (prev ++ [(n, some sv)]) (dist ++ [(n, svDist + w)]) (q ++ [(n, svDist + w)])
          hrest halign2
      refine ⟨p2, d2, q3, h1, ?_, h3⟩
      rw [← h2]
      congr 1
      simp [distToH]
    · have hqh : qget (distToH dist) n = some (dcur, 0) := by rw [qget_distToH, hq]
      simp only [hq, hqh]
      by_cases hcmp : svDist + w > dcur
      · simp only [if_pos hcmp]
        exact ih prev dist q hrest halign
      · simp only [if_neg hcmp, add_zero]
        have halign2 : ∀ pr ∈ pqChangePriority q n (svDist + w),
            qget (updAssoc dist n (svDist + w)) pr.1 = some pr.2 := by
          intro pr hpr
          simp only [pqChangePriority, List.mem_map] at hpr
          obtain ⟨pr0, hpr0, hpr⟩ := hpr
          by_cases hk : pr0.1 = n
          · rw [if_pos hk] at hpr
            subst hpr
            simp only [hk]
            exact qget_updAssoc_self dist n (svDist + w) (by rw [hq]; rfl)
          · rw [if_neg hk] at hpr
            subst hpr
            rw [qget_updAssoc_other dist n pr0.1 (svDist + w) hk]
            exact halign pr0 hpr0
        obtain ⟨p2, d2, q3, h1, h2, h3⟩ :=
          ih (updAssoc prev n (some sv)) (updAssoc dist n (svDist + w))
            (pqChangePriority q n (svDist + w)) hrest halign2
        refine ⟨p2, d2, q3, h1, ?_, h3⟩
        rw [← h2, updAssoc_distToH]

/-- Helper for claim C8: with non-negative weights and the zero heuristic
the two search loops coincide, provided every queue entry carries its
recorded distance. -/
theorem loop_correspond [LinearOrder W] [AddZeroClass W] (g : WGraph W) (dataFn : Entity → C)
    (e : Entity) (hg : wNonnegB g = true) :
    ∀ (fuel : Nat) (prev : List (Entity × Option Entity)) (dist queue : List (Entity × W)),
      (∀ pr ∈ queue, qget dist pr.1 = some pr.2) →
      aStarLoop g dataFn e (dataFn e) (fun _ _ => 0) fuel prev (distToH dist) queue =
        dijkstraLoop g e fuel prev dist queue := by
  intro fuel
  induction fuel with
  | zero => intro prev dist queue _; rfl
  | succ fuel ih =>
    intro prev dist queue halign
    simp only [aStarLoop, dijkstraLoop]
    rcases hpop : pqPopMin queue with _ | pr
    · rfl
    · obtain ⟨⟨sv, svDist⟩, q2⟩ := pr
      obtain ⟨hmem, hsub⟩ := pqPopMin_mem queue (sv, svDist) q2 hpop
      have halign2 : ∀ pr ∈ q2, qget dist pr.1 = some pr.2 :=
        fun pr hpr => halign pr (hsub pr hpr)
      by_cases hend : sv = e
      · simp only [if_pos hend]
      · simp only [if_neg hend]
        rcases hsv : qget g sv with _ | ns
        · simp only [hsv]
          exact ih prev dist q2 halign2
        · have hsvd : qget dist sv = some svDist := halign (sv, svDist) hmem
          have hsvdh : ((qget (distToH dist) sv).getD (0, 0)).1 = svDist := by
            rw [qget_distToH, hsvd]
            rfl
          have hnn : ∀ p ∈ ns, ¬ p.2 < 0 := wNonnegB_qget g sv ns hg hsv
          obtain ⟨p2, d2, q3, h1, h2, h3⟩ := scan_correspond sv svDist ns prev dist q2 hnn halign2
          simp only [hsv, hsvdh, h1, h2]
          exact ih p2 d2 q3 h3

/-- Claim C8: on any store with non-negative edge weights, a_star_search
with the always-zero heuristic returns exactly what dijkstra_search
returns on the same store and endpoints, so in particular the same path
with the same total distance. -/
theorem a_star_zero_heuristic_eq_dijkstra [LinearOrder W] [AddZeroClass W] (g : WGraph W)
    (dataFn : Entity → C) (s e : Entity) (hw : wNonnegB g = true) :
    a_star_search g dataFn s e (fun _ _ => 0) = dijkstra_search g s e := by
  simp only [a_star_search, dijkstra_search]
  rcases hs : qget g s with _ | sv
  · rfl
  · simp only [hs]
    rcases he : qget g e with _ | ev
    · rfl
    · simp only [he]
      have h0 : [(s, ((0 : W), (0 : W)))] = distToH [(s, (0 : W))] := rfl
      rw [h0]
      refine loop_correspond g dataFn e hw (wFuel g) [(s, none)] [(s, 0)] [(s, 0)] ?_
      intro pr hpr
      simp only [List.mem_singleton] at hpr
      subst hpr
      simp [qget]

/-- Witness for claim C8 on a concrete store where the indirect route wins. -/
theorem a_star_zero_heuristic_eq_dijkstra_witness :
    wNonnegB exWeighted = true ∧
    a_star_search exWeighted (fun _ => ()) 0 2 (fun _ _ => 0) = dijkstra_search exWeighted 0 2 ∧
    dijkstra_search exWeighted 0 2 = .ok [2, 1, 0] :=
  ⟨by decide,
   a_star_zero_heuristic_eq_dijkstra exWeighted (fun _ => ()) 0 2 (by decide),
   by decide⟩

/-- Membership of a contained element, specialised to entity lists. -/
theorem containsB_iff (l : List Entity) (x : Entity) : l.contains x = true ↔ x ∈ l := by
  induction l with
  | nil => simp
  | cons hd tl ih => by_cases h : hd = x <;> simp [List.contains, h] at ih ⊢ <;> simp [ih, eq_comm]

/-- An entry of a store with distinct keys is what lookup returns. -/
theorem qget_of_mem_nodup (g : List (Nat × α)) (k : Nat) (v : α)
    (hnd : (g.map Prod.fst).Nodup) (hmem : (k, v) ∈ g) : qget g k = some v := by
  induction g with
  | nil => cases hmem
  | cons hd tl ih =>
    obtain ⟨a, b⟩ := hd
    simp only [List.map_cons, List.nodup_cons] at hnd
    rcases List.mem_cons.mp hmem with heq | hmem2
    · injection heq with h1 h2
      subst h1; subst h2
      simp [qget]
    · by_cases h : a = k
      · subst h
        exact absurd (List.mem_map_of_mem Prod.fst hmem2) hnd.1
      · simp only [qget, if_neg h]
        exact ih hnd.2 hmem2

/-- Lookup survives appending entries on the right. -/
theorem qget_extend (m ext : List (Nat × α)) (k : Nat) (v : α) (h : qget m k = some v) :
    qget (m ++ ext) k = some v := by
  rw [qget_append, h]

/-- A predecessor chain stays valid when the map grows on the right. -/
theorem chainFollowsB_extend (m ext : List (Entity × Option Entity)) :
    ∀ p, chainFollowsB m p = true → chainFollowsB (m ++ ext) p = true := by
  intro p
  induction p with
  | nil => simp [chainFollowsB]
  | cons a rest ih =>
    cases rest with
    | nil =>
      simp only [chainFollowsB, decide_eq_true_eq]
      exact fun h => qget_extend m ext a none h
    | cons b rest2 =>
      simp only [chainFollowsB, Bool.and_eq_true, decide_eq_true_eq]
      rintro ⟨h1, h2⟩
      exact ⟨qget_extend m ext a (some b) h1, ih h2⟩

/-- Lookup in a constant-record discovery batch finds the constant. -/
theorem qget_constMap (l : List Entity) (x : Entity) (c : α) (h : x ∈ l) :
    qget (l.map fun v => (v, c)) x = some c := by
  induction l with
  | nil => cases h
  | cons hd tl ih =>
    by_cases h2 : hd = x
    · simp [qget, h2]
    · rcases List.mem_cons.mp h with rfl | h3
      · exact absurd rfl h2
      · simp only [List.map_cons, qget, if_neg h2]
        exact ih h3

/-- One expansion step of reachability, as an existence of a store entry. -/
theorem reaches_step (g : UGraph) (s : Entity) (n : Nat) (x : Entity) :
    reachesInB g s (n + 1) x = true ↔
      ∃ p ∈ g, reachesInB g s n p.1 = true ∧ x ∈ p.2 := by
  simp only [reachesInB, List.any_eq_true, Bool.and_eq_true]
  constructor
  · rintro ⟨p, hp, h1, h2⟩
    exact ⟨p, hp, h1, (containsB_iff p.2 x).mp h2⟩
  · rintro ⟨p, hp, h1, h2⟩
    exact ⟨p, hp, h1, (containsB_iff p.2 x).mpr h2⟩

/-- A reverse chain ending at the start witnesses reachability in exactly
its edge count. -/
theorem revChain_reaches (g : UGraph) (s : Entity) :
    ∀ (t : List Entity) (v : Entity), revChainB g (v :: t) = true →
      (v :: t).getLast? = some s → reachesInB g s t.length v = true := by
  intro t
  induction t with
  | nil =>
    intro v _ hlast
    simp only [List.getLast?_singleton, Option.some.injEq] at hlast
    simp [reachesInB, hlast]
  | cons b t2 ih =>
    intro v hchain hlast
    simp only [revChainB, Bool.and_eq_true] at hchain
    obtain ⟨hedge, hchain2⟩ := hchain
    have hlast2 : (b :: t2).getLast? = some s := by
      rwa [List.getLast?_cons_cons] at hlast
    have hreach := ih b hchain2 hlast2
    simp only [edgeB] at hedge
    rcases hq : qget g b with _ | ns
    · rw [hq] at hedge; cases hedge
    · rw [hq] at hedge
      refine (reaches_step g s t2.length v).mpr ⟨(b, ns), qget_mem g b ns hq, hreach, ?_⟩
      exact (containsB_iff ns v).mp hedge

/-- Every neighbour list obtained by lookup sits inside the concatenated
slot list. -/
theorem qget_subset_allNbrs (g : UGraph) (u : Entity) (ns : List Entity)
    (h : qget g u = some ns) : ∀ v ∈ ns, v ∈ allNbrs g := by
  intro v hv
  have hmem := qget_mem g u ns h
  simp only [allNbrs, List.mem_join]
  exact ⟨ns, List.mem_map_of_mem _ hmem, hv⟩

/-- The concatenated slot list has exactly nbrsSum entries. -/
theorem allNbrs_length (g : UGraph) : (allNbrs g).length = nbrsSum g := by
  simp only [allNbrs, nbrsSum, List.length_join, List.map_map]
  rfl

/-- A duplicate-free list of visited keys, each the start or some slot,
cannot outgrow the slot bound. -/
theorem keys_le_capBound (g : UGraph) (s : Entity) (keys : List Entity)
    (hnd : keys.Nodup) (hsub : ∀ v ∈ keys, v = s ∨ v ∈ allNbrs g) :
    keys.length ≤ capBound g := by
  have hsub2 : keys ⊆ s :: allNbrs g := by
    intro v hv
    rcases hsub v hv with rfl | h
    · exact List.mem_cons_self _ _
    · exact List.mem_cons_of_mem _ h
  have := (List.subperm_of_subset hnd hsub2).length_le
  simpa [capBound, allNbrs_length] using this

/-- Shape of a completed neighbour scan: the queue gains exactly the fresh
discoveries, in order, and the visited map gains their records with the
popped vertex as predecessor; the stop vertex is not among them, and every
scanned neighbour is visited afterwards. -/
theorem bfsScan_some_inl (e sv : Entity) :
    ∀ (ns q : List Entity) (vis : VisitedNodes) (q2 : List Entity) (vis2 : VisitedNodes),
      bfsScan (some e) sv ns q vis = .inl (q2, vis2) →
      ∃ fresh, q2 = q ++ fresh ∧
        vis2.entries = vis.entries ++ fresh.map (fun v => (v, ⟨some sv, 0, 0⟩)) ∧
        fresh.Nodup ∧ (∀ v ∈ fresh, qget vis.entries v = none) ∧
        (∀ v ∈ fresh, v ∈ ns) ∧ e ∉ fresh ∧
        (∀ v ∈ ns, (qget vis2.entries v).isSome) := by
  intro ns
  induction ns with
  | nil =>
    intro q vis q2 vis2 h
    simp only [bfsScan, Sum.inl.injEq, Prod.mk.injEq] at h
    obtain ⟨rfl, rfl⟩ := h
    exact ⟨[], by simp, by simp, List.nodup_nil, by simp, by simp, by simp, by simp⟩
  | cons n rest ih =>
    intro q vis q2 vis2 h
    cases hvb : vis.is_visited n with
    | true =>
      simp only [bfsScan, hvb, if_true] at h
      obtain ⟨fresh, hq, hv, hnd, hnone, hsub, hne, hall⟩ := ih q vis q2 vis2 h
      refine ⟨fresh, hq, hv, hnd, hnone, fun v hv2 => List.mem_cons_of_mem _ (hsub v hv2), hne, ?_⟩
      intro v hv2
      rcases List.mem_cons.mp hv2 with rfl | hv3
      · simp only [VisitedNodes.is_visited, Option.isSome_iff_exists] at hvb
        obtain ⟨r, hr⟩ := hvb
        rw [hv]
        exact Option.isSome_iff_exists.mpr ⟨r, qget_extend _ _ _ _ hr⟩
      · exact hall v hv3
    | false =>
      simp only [bfsScan, hvb, Bool.false_eq_true, if_false] at h
      have hqvn : qget vis.entries n = none := by
        simp only [VisitedNodes.is_visited] at hvb
        rcases hq2 : qget vis.entries n with _ | r
        · rfl
        · rw [hq2] at hvb; cases hvb
      by_cases he : e = n
      · subst he
        rw [if_pos rfl] at h
        exact Sum.noConfusion h
      · have hene : some e ≠ some n := by simpa using he
        rw [if_neg hene] at h
        obtain ⟨fresh, hq, hv, hnd, hnone, hsub, hne, hall⟩ :=
          ih (q ++ [n]) (vis.insert n sv 0 0) q2 vis2 h
        have hqins : qget (vis.insert n sv 0 0).entries n = some ⟨some sv, 0, 0⟩ := by
          simp only [VisitedNodes.insert, qget_append, hqvn]
          simp [qget]
        have hnfresh : n ∉ fresh := by
          intro hmem
          have := hnone n hmem
          rw [hqins] at this
          cases this
        have hback : ∀ v, qget (vis.insert n sv 0 0).entries v = none →
            qget vis.entries v = none := by
          intro v hv2
          rcases hq3 : qget vis.entries v with _ | r
          · rfl
          · have := qget_extend vis.entries [(n, ⟨some sv, 0, 0⟩)] v r hq3
            simp only [VisitedNodes.insert] at hv2
            rw [this] at hv2
            cases hv2
        refine ⟨n :: fresh, by simpa using hq, ?_, ?_, ?_, ?_, ?_, ?_⟩
        · rw [hv]
          simp [VisitedNodes.insert]
        · exact List.nodup_cons.mpr ⟨hnfresh, hnd⟩
        · intro v hv2
          rcases List.mem_cons.mp hv2 with rfl | hv3
          · exact hqvn
          · exact hback v (hnone v hv3)
        · intro v hv2
          rcases List.mem_cons.mp hv2 with rfl | hv3
          · exact List.mem_cons_self _ _
          · exact List.mem_cons_of_mem _ (hsub v hv3)
        · intro hmem
          rcases List.mem_cons.mp hmem with heq | hv3
          · exact he heq
          · exact hne hv3
        · intro v hv2
          rcases List.mem_cons.mp hv2 with rfl | hv3
          · rw [hv]
            exact Option.isSome_iff_exists.mpr ⟨_, qget_extend _ _ _ _ hqins⟩
          · exact hall v hv3

/-- Shape of a scan that discovered the stop vertex: the visited map gains
the earlier fresh discoveries and then the stop vertex, all with the popped
vertex as predecessor. -/
theorem bfsScan_some_inr (e sv : Entity) :
    ∀ (ns q : List Entity) (vis : VisitedNodes) (vis2 : VisitedNodes),
      bfsScan (some e) sv ns q vis = .inr vis2 →
      ∃ fresh, vis2.entries = vis.entries ++ (fresh ++ [e]).map (fun v => (v, ⟨some sv, 0, 0⟩)) ∧
        (∀ v ∈ fresh, v ∈ ns) ∧ e ∈ ns ∧ qget vis.entries e = none ∧ e ∉ fresh := by
  intro ns
  induction ns with
  | nil =>
    intro q vis vis2 h
    simp only [bfsScan] at h
    exact Sum.noConfusion h
  | cons n rest ih =>
    intro q vis vis2 h
    cases hvb : vis.is_visited n with
    | true =>
      simp only [bfsScan, hvb, if_true] at h
      obtain ⟨fresh, hv, hsub, hens, hnone, hnf⟩ := ih q vis vis2 h
      exact ⟨fresh, hv, fun v hv2 => List.mem_cons_of_mem _ (hsub v hv2),
        List.mem_cons_of_mem _ hens, hnone, hnf⟩
    | false =>
      simp only [bfsScan, hvb, Bool.false_eq_true, if_false] at h
      have hqvn : qget vis.entries n = none := by
        simp only [VisitedNodes.is_visited] at hvb
        rcases hq2 : qget vis.entries n with _ | r
        · rfl
        · rw [hq2] at hvb; cases hvb
      by_cases he : e = n
      · subst he
        rw [if_pos rfl] at h
        injection h with h
        refine ⟨[], ?_, by simp, List.mem_cons_self _ _, hqvn, List.not_mem_nil _⟩
        rw [← h]
        simp [VisitedNodes.insert]
      · have hene : some e ≠ some n := by simpa using he
        rw [if_neg hene] at h
        obtain ⟨fresh, hv, hsub, hens, hnone, hnf⟩ := ih (q ++ [n]) (vis.insert n sv 0 0) vis2 h
        have hback : qget vis.entries e = none := by
          rcases hq3 : qget vis.entries e with _ | r
          · rfl
          · have := qget_extend vis.entries [(n, ⟨some sv, 0, 0⟩)] e r hq3
            simp only [VisitedNodes.insert] at hnone
            rw [this] at hnone
            cases hnone
        refine ⟨n :: fresh, ?_, ?_, List.mem_cons_of_mem _ hens, hback, ?_⟩
        · rw [hv]
          simp [VisitedNodes.insert]
        · intro v hv2
          rcases List.mem_cons.mp hv2 with rfl | hv3
          · exact List.mem_cons_self _ _
          · exact List.mem_cons_of_mem _ (hsub v hv3)
        · intro hmem
          rcases List.mem_cons.mp hmem with heq | hv3
          · exact he heq
          · exact hnf hv3

/-- The stop-free scan always completes, growing the visited map on the
right. -/
theorem bfsScan_none_total (sv : Entity) :
    ∀ (ns q : List Entity) (vis : VisitedNodes),
      ∃ q3 vis3 ext, bfsScan none sv ns q vis = .inl (q3, vis3) ∧
        vis3.entries = vis.entries ++ ext := by
  intro ns
  induction ns with
  | nil =>
    intro q vis
    exact ⟨q, vis, [], rfl, by simp⟩
  | cons n rest ih =>
    intro q vis
    cases hvb : vis.is_visited n with
    | true =>
      obtain ⟨q3, vis3, ext, hrun, hext⟩ := ih q vis
      refine ⟨q3, vis3, ext, ?_, hext⟩
      simp only [bfsScan, hvb, if_true]
      exact hrun
    | false =>
      obtain ⟨q3, vis3, ext, hrun, hext⟩ := ih (q ++ [n]) (vis.insert n sv 0 0)
      refine ⟨q3, vis3, (n, ⟨some sv, 0, 0⟩) :: ext, ?_, ?_⟩
      · simp only [bfsScan, hvb, Bool.false_eq_true, if_false]
        rw [if_neg (by simp)]
        exact hrun
      · rw [hext]
        simp [VisitedNodes.insert]

/-- A scan that completed with an end in sight completes identically with
no stop vertex. -/
theorem bfsScan_none_of_inl (e sv : Entity) :
    ∀ (ns q : List Entity) (vis : VisitedNodes) (q2 : List Entity) (vis2 : VisitedNodes),
      bfsScan (some e) sv ns q vis = .inl (q2, vis2) →
      bfsScan none sv ns q vis = .inl (q2, vis2) := by
  intro ns
  induction ns with
  | nil => intro q vis q2 vis2 h; exact h
  | cons n rest ih =>
    intro q vis q2 vis2 h
    cases hvb : vis.is_visited n with
    | true =>
      simp only [bfsScan, hvb, if_true] at h ⊢
      exact ih q vis q2 vis2 h
    | false =>
      simp only [bfsScan, hvb, Bool.false_eq_true, if_false] at h ⊢
      rw [if_neg (by simp)]
      by_cases he : e = n
      · subst he
        rw [if_pos rfl] at h
        exact Sum.noConfusion h
      · rw [if_neg (by simpa using he)] at h
        exact ih (q ++ [n]) (vis.insert n sv 0 0) q2 vis2 h

/-- A scan that discovered the stop vertex, rerun with no stop vertex,
completes with a visited map extending the stopped one. -/
theorem bfsScan_none_of_inr (e sv : Entity) :
    ∀ (ns q : List Entity) (vis : VisitedNodes) (vis2 : VisitedNodes),
      bfsScan (some e) sv ns q vis = .inr vis2 →
      ∃ q3 vis3 ext, bfsScan none sv ns q vis = .inl (q3, vis3) ∧
        vis3.entries = vis2.entries ++ ext := by
  intro ns
  induction ns with
  | nil =>
    intro q vis vis2 h
    simp only [bfsScan] at h
    exact Sum.noConfusion h
  | cons n rest ih =>
    intro q vis vis2 h
    cases hvb : vis.is_visited n with
    | true =>
      simp only [bfsScan, hvb, if_true] at h ⊢
      exact ih q vis vis2 h
    | false =>
      simp only [bfsScan, hvb, Bool.false_eq_true, if_false] at h ⊢
      rw [if_neg (by simp)]
      by_cases he : e = n
      · subst he
        rw [if_pos rfl] at h
        injection h with h
        obtain ⟨q3, vis3, ext, hrun, hext⟩ :=
          bfsScan_none_total sv rest (q ++ [e]) (vis.insert e sv 0 0)
        rw [h] at hext
        exact ⟨q3, vis3, ext, hrun, hext⟩
      · rw [if_neg (by simpa using he)] at h
        exact ih (q ++ [n]) (vis.insert n sv 0 0) vis2 h

/-- The exhaustive first-discovery loop only appends to the visited map. -/
theorem bfsAllLoop_mono (g : UGraph) :
    ∀ (fuel : Nat) (q : List Entity) (vis : VisitedNodes),
      ∃ ext, (bfsAllLoop g fuel q vis).entries = vis.entries ++ ext := by
  intro fuel
  induction fuel with
  | zero => intro q vis; exact ⟨[], by simp [bfsAllLoop]⟩
  | succ fuel ih =>
    intro q vis
    cases q with
    | nil => exact ⟨[], by simp [bfsAllLoop]⟩
    | cons sv rest =>
      simp only [bfsAllLoop]
      rcases hsv : qget g sv with _ | ns
      · simp only [hsv]
        exact ih rest vis
      · simp only [hsv]
        obtain ⟨q3, vis3, ext, hrun, hext⟩ := bfsScan_none_total sv ns rest vis
        rw [hrun]
        obtain ⟨ext2, hext2⟩ := ih q3 vis3
        exact ⟨ext ++ ext2, by rw [hext2, hext, List.append_assoc]⟩

/-- The first lookup along a predecessor chain returns the next chain
element (or the absent predecessor at the chain end). -/
theorem chainFollowsB_head_lookup (m : List (Entity × Option Entity)) (b : Entity)
    (t2 : List Entity) (h : chainFollowsB m (b :: t2) = true) : qget m b = some t2.head? := by
  cases t2 with
  | nil => simpa [chainFollowsB] using h
  | cons c t3 =>
    simp only [chainFollowsB, Bool.and_eq_true, decide_eq_true_eq] at h
    simpa using h.1

/-- The chain follower reproduces any valid predecessor chain that fits
under the length cap. -/
theorem followChain_of_chain (m : List (Entity × Option Entity)) (maxLen : Nat) :
    ∀ (t : List Entity) (k : Nat) (z : Entity) (q : List Entity),
      chainFollowsB m (z :: t) = true →
      (q ++ [z]).length + t.length ≤ maxLen →
      t.length < k →
      followChain m maxLen k t.head? (q ++ [z]) = .ok (q ++ [z] ++ t) := by
  intro t
  induction t with
  | nil =>
    intro k z q _ _ _
    simp [followChain]
  | cons b t2 ih =>
    intro k z q hchain hcap hk
    cases k with
    | zero => omega
    | succ k2 =>
      simp only [chainFollowsB, Bool.and_eq_true, decide_eq_true_eq] at hchain
      obtain ⟨hzb, hchain2⟩ := hchain
      have hqb : qget m b = some t2.head? := chainFollowsB_head_lookup m b t2 hchain2
      simp only [List.head?_cons, followChain, hqb]
      have hlen : ¬ ((q ++ [z]).length + 1 > maxLen) := by
        simp only [List.length_append, List.length_cons] at hcap ⊢
        omega
      rw [if_neg hlen]
      have := ih k2 b (q ++ [z]) hchain2 (by simp_all; omega) (by simp at hk; omega)
      rw [this]
      simp

/-- determine_path reproduces any valid predecessor chain that fits in the
map. -/
theorem determine_path_of_chain (m : List (Entity × Option Entity)) (v : Entity)
    (t : List Entity) (hchain : chainFollowsB m (v :: t) = true)
    (hcap : t.length + 1 ≤ m.length) :
    determine_path m v = .ok (v :: t) := by
  have hqv : qget m v = some t.head? := chainFollowsB_head_lookup m v t hchain
  simp only [determine_path, hqv]
  have h0 : ([] : List Entity) ++ [v] = [v] := rfl
  rw [← h0]
  have := followChain_of_chain m m.length t (m.length + 2) v [] hchain
    (by simp; omega) (by omega)
  rw [this]
  simp

/-- Lookup commutes with mapping the stored values. -/
theorem qget_mapVal (l : List (Nat × α)) (f : α → β) (k : Nat) :
    qget (l.map fun p => (p.1, f p.2)) k = (qget l k).map f := by
  induction l with
  | nil => simp [qget]
  | cons hd tl ih =>
    obtain ⟨a, b⟩ := hd
    by_cases h : a = k
    · simp [qget, h]
    · simpa [qget, h] using ih

/-- A successful lookup is guaranteed for any key occurring in the list. -/
theorem qget_isSome_of_mem (l : List (Nat × α)) (p : Nat × α) (hp : p ∈ l) :
    (qget l p.1).isSome := by
  induction l with
  | nil => cases hp
  | cons hd tl ih =>
    by_cases h : hd.1 = p.1
    · obtain ⟨a, b⟩ := hd
      simp only at h
      simp [qget, h]
    · rcases List.mem_cons.mp hp with rfl | hp2
      · exact absurd rfl h
      · obtain ⟨a, b⟩ := hd
        simp only at h
        simp only [qget, if_neg h]
        exact ih hp2

/-- A key is among the visited keys exactly when its lookup succeeds. -/
theorem key_mem_iff_isSome (vis : VisitedNodes) (v : Entity) :
    v ∈ visKeys vis ↔ (qget vis.entries v).isSome := by
  constructor
  · intro h
    simp only [visKeys, List.mem_map] at h
    obtain ⟨p, hp, hps⟩ := h
    have := qget_isSome_of_mem vis.entries p hp
    rwa [hps] at this
  · intro h
    obtain ⟨r, hr⟩ := Option.isSome_iff_exists.mp h
    have := qget_mem vis.entries v r hr
    simpa [visKeys] using List.mem_map_of_mem Prod.fst this

/-- Every visited key is the start or reachable through some store slot. -/
theorem bfsInv_keys_cases (g : UGraph) (s e : Entity) (D : Entity → Nat)
    (proc q : List Entity) (vis : VisitedNodes) (fuel : Nat)
    (inv : BfsInv g s e D proc q vis fuel) :
    ∀ v ∈ visKeys vis, v = s ∨ v ∈ allNbrs g := by
  intro v hv
  obtain ⟨t, hchain, hlen, hrev, hlast, hcap⟩ := inv.chains v hv
  cases t with
  | nil =>
    left
    simpa using hlast
  | cons b t2 =>
    right
    simp only [revChainB, Bool.and_eq_true] at hrev
    have hedge := hrev.1
    simp only [edgeB] at hedge
    rcases hq : qget g b with _ | ns
    · rw [hq] at hedge; cases hedge
    · rw [hq] at hedge
      exact qget_subset_allNbrs g b ns hq v ((containsB_iff ns v).mp hedge)

/-- With an empty queue, the invariant puts every reachable vertex among
the processed ones; since the end vertex is undiscovered, the end is
unreachable. -/
theorem bfsInv_empty_unreachable (g : UGraph) (s e : Entity) (D : Entity → Nat)
    (proc : List Entity) (vis : VisitedNodes) (fuel : Nat)
    (inv : BfsInv g s e D proc [] vis fuel) (n : Nat) :
    reachesInB g s n e = true → False := by
  intro hreach
  have he : e ∈ proc := inv.front e n hreach (by intro hd h; cases h)
  have : e ∈ visKeys vis := by
    rw [inv.keys_eq]
    simpa using he
  exact inv.no_e this

/-- The invariant forces a positive fuel budget whenever the queue is
nonempty. -/
theorem bfsInv_fuel_pos (g : UGraph) (s e : Entity) (D : Entity → Nat)
    (proc q : List Entity) (vis : VisitedNodes) (fuel : Nat)
    (inv : BfsInv g s e D proc q vis fuel) (hne : q ≠ []) : 0 < fuel := by
  by_contra h0
  have hf : fuel = 0 := by omega
  subst hf
  have hb := keys_le_capBound g s (visKeys vis) inv.keys_nodup
    (bfsInv_keys_cases g s e D proc q vis 0 inv)
  have := inv.fuel_ok
  have hq0 : q.length = 0 := by omega
  exact hne (List.length_eq_zero.mp hq0)

/-- Invariant restoration when the popped vertex is absent from the store:
it moves from the queue to the processed list and nothing else changes. -/
theorem bfsInv_step_none (g : UGraph) (s e : Entity) (hnd : (g.map Prod.fst).Nodup)
    (D : Entity → Nat) (proc rest : List Entity) (sv : Entity) (vis : VisitedNodes)
    (fuel : Nat) (inv : BfsInv g s e D proc (sv :: rest) vis (fuel + 1))
    (hsv : qget g sv = none) :
    BfsInv g s e D (proc ++ [sv]) rest vis fuel := by
  have keys_eq2 : visKeys vis = (proc ++ [sv]) ++ rest := by
    rw [inv.keys_eq]; simp
  have hhead := inv.last_head sv rfl
  have hrestpair : List.Pairwise (fun a b => D a ≤ D b) (sv :: rest) := by
    have hpair := inv.mono
    rw [inv.keys_eq] at hpair
    exact (List.pairwise_append.mp hpair).2.1
  have hsv_le : ∀ y ∈ rest, D sv ≤ D y := (List.pairwise_cons.mp hrestpair).1
  have hhd_le : ∀ hd, rest.head? = some hd → ∀ y ∈ rest, D hd ≤ D y := by
    intro hd hhd y hy
    cases rest with
    | nil => cases hhd
    | cons a rest2 =>
      injection hhd with hhd
      subst hhd
      rcases List.mem_cons.mp hy with rfl | hy2
      · exact le_refl _
      · exact (List.pairwise_cons.mp (List.pairwise_cons.mp hrestpair).2).1 y hy2
  have hkeyproc : ∀ y m, reachesInB g s m y = true →
      (∀ hd, rest.head? = some hd → m < D hd) → y ∈ visKeys vis → y ∈ proc ++ [sv] := by
    intro y m hy hcond hyk
    rw [keys_eq2] at hyk
    rcases List.mem_append.mp hyk with h | h
    · exact h
    · exfalso
      cases hrest : rest with
      | nil => rw [hrest] at h; cases h
      | cons hd rest2 =>
        subst hrest
        have hhd : D hd ≤ D y := hhd_le hd rfl y h
        have hlt := hcond hd rfl
        have := inv.dopt y m hy (by rw [keys_eq2]; exact List.mem_append.mpr (.inr h))
        omega
  refine ⟨keys_eq2, inv.keys_nodup, ?_, inv.ds_zero, inv.mono, ?_, ?_, inv.dopt, ?_,
    inv.chains, inv.no_e, ?_⟩
  · rcases inv.s_state with h | ⟨h1, h2⟩
    · left; simp [h]
    · left
      have : sv = s := by
        have := congrArg List.head? h2
        simpa using this
      simp [this]
  · intro hd hhd v hv
    have h1 : D sv ≤ D hd := by
      cases rest with
      | nil => cases hhd
      | cons a rest2 =>
        injection hhd with hhd
        subst hhd
        exact hsv_le _ (List.mem_cons_self _ _)
    have := hhead v hv
    omega
  · intro u hu ns hns v hv
    rcases List.mem_append.mp hu with hu2 | hu2
    · exact inv.closure u hu2 ns hns v hv
    · simp only [List.mem_singleton] at hu2
      subst hu2
      rw [hsv] at hns
      cases hns
  · intro x n hx hcond
    induction n using Nat.strong_induction_on generalizing x with
    | _ n ihn =>
      cases n with
      | zero =>
        have hxs : x = s := by simpa [reachesInB] using hx
        rw [hxs]
        rcases inv.s_state with h | ⟨h1, h2⟩
        · exact List.mem_append.mpr (.inl h)
        · have hsv2 : sv = s := by
            have := congrArg List.head? h2
            simpa using this
          rw [← hsv2]
          simp
      | succ m =>
        obtain ⟨p, hp, hpre, hmem⟩ := (reaches_step g s m x).mp hx
        obtain ⟨u, nsu⟩ := p
        have hu : u ∈ proc ++ [sv] := by
          refine ihn m (by omega) u hpre ?_
          intro hd hhd
          have := hcond hd hhd
          omega
        have hqu : qget g u = some nsu := qget_of_mem_nodup g u nsu hnd hp
        rcases List.mem_append.mp hu with hu2 | hu2
        · have hcl := inv.closure u hu2 nsu hqu x hmem
          exact hkeyproc x (m + 1) hx hcond hcl.1
        · simp only [List.mem_singleton] at hu2
          subst hu2
          rw [hsv] at hqu
          cases hqu
  · have := inv.fuel_ok
    simp only [List.length_cons] at this
    omega

/-- The keys of a constant-record batch are the batch itself. -/
theorem map_fst_constMap (l : List Entity) (c : α) :
    (l.map fun v => (v, c)).map Prod.fst = l := by
  induction l with
  | nil => rfl
  | cons hd tl ih => simp [ih]

/-- Lookup misses a constant-record batch built from keys avoiding it. -/
theorem qget_constMap_none (l : List Entity) (x : Entity) (c : α) (h : x ∉ l) :
    qget (l.map fun v => (v, c)) x = none := by
  induction l with
  | nil => rfl
  | cons hd tl ih =>
    simp only [List.mem_cons, not_or] at h
    have hne : ¬ hd = x := fun heq => h.1 heq.symm
    simp only [List.map_cons, qget, if_neg hne]
    exact ih h.2

/-- Lookup skips a left part that misses the key. -/
theorem qget_append_none (l1 l2 : List (Nat × α)) (k : Nat) (h : qget l1 k = none) :
    qget (l1 ++ l2) k = qget l2 k := by
  rw [qget_append, h]

/-- A vertex absent from the visited map is absent from its predecessor
projection. -/
theorem predProj_qget_none (vis : VisitedNodes) (v : Entity)
    (h : qget vis.entries v = none) : qget (predProj vis) v = none := by
  have h2 := qget_mapVal vis.entries VisitedRecord.pred v
  rw [h] at h2
  simpa [predProj] using h2

/-- The predecessor projection of a visited map extended by a batch of
records sharing one predecessor. -/
theorem predProj_append_batch (vis : VisitedNodes) (l : List Entity) (p : Option Entity)
    (vis2 : VisitedNodes)
    (h : vis2.entries = vis.entries ++ l.map fun v => (v, ⟨p, 0, 0⟩)) :
    predProj vis2 = predProj vis ++ l.map fun v => (v, p) := by
  simp only [predProj, h, List.map_append, List.map_map]
  rfl

/-- Pairwise propositions transfer along a pointwise implication valid on
the list's members. -/
theorem pairwise_congr_on (l : List α) (R S : α → α → Prop)
    (h : ∀ a ∈ l, ∀ b ∈ l, R a b → S a b) (hp : l.Pairwise R) : l.Pairwise S := by
  induction l with
  | nil => exact List.Pairwise.nil
  | cons x tl ih =>
    obtain ⟨hx, htl⟩ := List.pairwise_cons.mp hp
    refine List.pairwise_cons.mpr ⟨?_, ?_⟩
    · intro b hb
      exact h x (List.mem_cons_self _ _) b (List.mem_cons_of_mem _ hb) (hx b hb)
    · exact ih (fun a ha b hb => h a (List.mem_cons_of_mem _ ha) b (List.mem_cons_of_mem _ hb)) htl

/-- A relation holding across all member pairs is pairwise. -/
theorem pairwise_of_total (l : List α) (R : α → α → Prop)
    (h : ∀ a ∈ l, ∀ b ∈ l, R a b) : l.Pairwise R := by
  induction l with
  | nil => exact List.Pairwise.nil
  | cons x tl ih =>
    refine List.pairwise_cons.mpr ⟨?_, ?_⟩
    · intro b hb
      exact h x (List.mem_cons_self _ _) b (List.mem_cons_of_mem _ hb)
    · exact ih fun a ha b hb => h a (List.mem_cons_of_mem _ ha) b (List.mem_cons_of_mem _ hb)

/-- The invariant keeps the start among the visited keys. -/
theorem bfsInv_s_mem (g : UGraph) (s e : Entity) (D : Entity → Nat)
    (proc : List Entity) (sv : Entity) (rest : List Entity) (vis : VisitedNodes)
    (fuel : Nat) (inv : BfsInv g s e D proc (sv :: rest) vis fuel) : s ∈ visKeys vis := by
  rcases inv.s_state with h | ⟨h1, h2⟩
  · rw [inv.keys_eq]
    exact List.mem_append.mpr (.inl h)
  · have hsv2 : sv = s := by
      have := congrArg List.head? h2
      simpa using this
    rw [inv.keys_eq, ← hsv2]
    simp

/-- Invariant restoration when the popped vertex's neighbours are scanned
without meeting the end: the popped vertex joins the processed list, its
fresh discoveries join the queue one layer down, and a bumped depth
assignment re-establishes every clause. -/
theorem bfsInv_step_scan (g : UGraph) (s e : Entity) (hnd : (g.map Prod.fst).Nodup)
    (D : Entity → Nat) (proc rest : List Entity) (sv : Entity) (vis : VisitedNodes)
    (fuel : Nat) (ns q2 : List Entity) (vis2 : VisitedNodes)
    (inv : BfsInv g s e D proc (sv :: rest) vis (fuel + 1))
    (hsv : qget g sv = some ns)
    (hscan : bfsScan (some e) sv ns rest vis = .inl (q2, vis2)) :
    ∃ D2, BfsInv g s e D2 (proc ++ [sv]) q2 vis2 fuel := by
  obtain ⟨fresh, hq, hv, hndf, hnone, hsub, hene, hall⟩ :=
    bfsScan_some_inl e sv ns rest vis q2 vis2 hscan
  subst hq
  refine ⟨bumpD vis D (D sv), ?_⟩
  have hD2old : ∀ v ∈ visKeys vis, bumpD vis D (D sv) v = D v := by
    intro v hvk
    have h := (key_mem_iff_isSome vis v).mp hvk
    simp only [bumpD]
    rw [if_pos h]
  have hD2fresh : ∀ v ∈ fresh, bumpD vis D (D sv) v = D sv + 1 := by
    intro v hvf
    simp only [bumpD]
    rw [hnone v hvf]
    simp
  have hdisj : ∀ v ∈ fresh, v ∉ visKeys vis := by
    intro v hvf hvk
    have h1 := (key_mem_iff_isSome vis v).mp hvk
    rw [hnone v hvf] at h1
    simp at h1
  have hsvk : sv ∈ visKeys vis := by
    rw [inv.keys_eq]
    exact List.mem_append.mpr (.inr (List.mem_cons_self _ _))
  have hsk : s ∈ visKeys vis := bfsInv_s_mem g s e D proc sv rest vis (fuel + 1) inv
  have hhead := inv.last_head sv rfl
  have hqpair : List.Pairwise (fun a b => D a ≤ D b) (sv :: rest) := by
    have hpair := inv.mono
    rw [inv.keys_eq] at hpair
    exact (List.pairwise_append.mp hpair).2.1
  have hsv_le : ∀ y ∈ rest, D sv ≤ D y := (List.pairwise_cons.mp hqpair).1
  have keys2 : visKeys vis2 = visKeys vis ++ fresh := by
    simp only [visKeys, hv, List.map_append, map_fst_constMap]
  have keys_eq2 : visKeys vis2 = (proc ++ [sv]) ++ (rest ++ fresh) := by
    rw [keys2, inv.keys_eq]
    simp
  have keys_nodup2 : (visKeys vis2).Nodup := by
    rw [keys2]
    refine List.nodup_append.mpr ⟨inv.keys_nodup, hndf, ?_⟩
    intro a ha hb
    exact hdisj a hb ha
  have s_state2 : s ∈ proc ++ [sv] ∨ (proc ++ [sv] = [] ∧ rest ++ fresh = [s]) := by
    left
    rcases inv.s_state with h | ⟨h1, h2⟩
    · exact List.mem_append.mpr (.inl h)
    · have hsv2 : sv = s := by
        have := congrArg List.head? h2
        simpa using this
      refine List.mem_append.mpr (.inr ?_)
      rw [hsv2]
      exact List.mem_singleton_self s
  have ds_zero2 : bumpD vis D (D sv) s = 0 := by
    rw [hD2old s hsk]
    exact inv.ds_zero
  have mono2 : (visKeys vis2).Pairwise fun a b => bumpD vis D (D sv) a ≤ bumpD vis D (D sv) b := by
    rw [keys2]
    refine List.pairwise_append.mpr ⟨?_, ?_, ?_⟩
    · refine pairwise_congr_on _ _ _ ?_ inv.mono
      intro a ha b hb hab
      rw [hD2old a ha, hD2old b hb]
      exact hab
    · refine pairwise_of_total _ _ ?_
      intro a ha b hb
      rw [hD2fresh a ha, hD2fresh b hb]
    · intro a ha b hb
      rw [hD2old a ha, hD2fresh b hb]
      exact hhead a ha
  have hqpair2 : List.Pairwise (fun a b => bumpD vis D (D sv) a ≤ bumpD vis D (D sv) b)
      (rest ++ fresh) := by
    have hpair := mono2
    rw [keys_eq2] at hpair
    exact (List.pairwise_append.mp hpair).2.1
  have hhd_le2 : ∀ hd, (rest ++ fresh).head? = some hd →
      ∀ y ∈ rest ++ fresh, bumpD vis D (D sv) hd ≤ bumpD vis D (D sv) y := by
    intro hd hhd y hy
    cases hq2 : rest ++ fresh with
    | nil =>
      rw [hq2] at hy
      cases hy
    | cons a tl =>
      rw [hq2] at hhd hy
      rw [List.head?_cons] at hhd
      injection hhd with hhd
      subst hhd
      rcases List.mem_cons.mp hy with rfl | hy2
      · exact le_refl _
      · have hpair := hqpair2
        rw [hq2] at hpair
        exact (List.pairwise_cons.mp hpair).1 y hy2
  have last_head2 : ∀ hd, (rest ++ fresh).head? = some hd →
      ∀ v ∈ visKeys vis2, bumpD vis D (D sv) v ≤ bumpD vis D (D sv) hd + 1 := by
    intro hd hhd v hvk
    have hdsv : D sv ≤ bumpD vis D (D sv) hd := by
      cases rest with
      | nil =>
        cases fresh with
        | nil => simp at hhd
        | cons f fr =>
          simp only [List.nil_append, List.head?_cons] at hhd
          injection hhd with hhd
          rw [← hhd, hD2fresh f (List.mem_cons_self _ _)]
          omega
      | cons a rest2 =>
        simp only [List.cons_append, List.head?_cons] at hhd
        injection hhd with hhd
        have hak : a ∈ visKeys vis := by
          rw [inv.keys_eq]
          exact List.mem_append.mpr (.inr (List.mem_cons_of_mem _ (List.mem_cons_self _ _)))
        rw [← hhd, hD2old a hak]
        exact hsv_le a (List.mem_cons_self _ _)
    rw [keys2] at hvk
    rcases List.mem_append.mp hvk with hvo | hvf2
    · have h1 := hhead v hvo
      have h2 := hD2old v hvo
      omega
    · have h2 := hD2fresh v hvf2
      omega
  have closure2 : ∀ u ∈ proc ++ [sv], ∀ nsu, qget g u = some nsu →
      ∀ v ∈ nsu, v ∈ visKeys vis2 ∧ bumpD vis D (D sv) v ≤ bumpD vis D (D sv) u + 1 := by
    intro u hu nsu hnsu v hvn
    rcases List.mem_append.mp hu with hup | hus
    · obtain ⟨hmem, hle⟩ := inv.closure u hup nsu hnsu v hvn
      have huk : u ∈ visKeys vis := by
        rw [inv.keys_eq]
        exact List.mem_append.mpr (.inl hup)
      refine ⟨by rw [keys2]; exact List.mem_append.mpr (.inl hmem), ?_⟩
      rw [hD2old v hmem, hD2old u huk]
      exact hle
    · simp only [List.mem_singleton] at hus
      have hus2 := hus.symm
      subst hus2
      rw [hsv] at hnsu
      injection hnsu with hnsu
      subst hnsu
      have hvk2 : v ∈ visKeys vis2 := (key_mem_iff_isSome vis2 v).mpr (hall v hvn)
      refine ⟨hvk2, ?_⟩
      have hsv2 := hD2old sv hsvk
      rw [keys2] at hvk2
      rcases List.mem_append.mp hvk2 with hvo | hvf
      · have h1 := hD2old v hvo
        have h2 := hhead v hvo
        omega
      · have h1 := hD2fresh v hvf
        omega
  have dopt2 : ∀ x n, reachesInB g s n x = true → x ∈ visKeys vis2 →
      bumpD vis D (D sv) x ≤ n := by
    intro x n hx hxk
    rw [keys2] at hxk
    rcases List.mem_append.mp hxk with hxo | hxf
    · rw [hD2old x hxo]
      exact inv.dopt x n hx hxo
    · rw [hD2fresh x hxf]
      cases n with
      | zero =>
        exfalso
        have hxs : x = s := by simpa [reachesInB] using hx
        refine hdisj x hxf ?_
        rw [hxs]
        exact hsk
      | succ m =>
        by_cases hm : m < D sv
        · exfalso
          obtain ⟨p, hp, hpre, hmem⟩ := (reaches_step g s m x).mp hx
          obtain ⟨u, nsu⟩ := p
          have hu : u ∈ proc := by
            refine inv.front u m hpre ?_
            intro hd hhd
            injection hhd with hhd
            subst hhd
            exact hm
          have hqu : qget g u = some nsu := qget_of_mem_nodup g u nsu hnd hp
          exact hdisj x hxf (inv.closure u hu nsu hqu x hmem).1
        · omega
  have front2 : ∀ x n, reachesInB g s n x = true →
      (∀ hd, (rest ++ fresh).head? = some hd → n < bumpD vis D (D sv) hd) →
      x ∈ proc ++ [sv] := by
    intro x n hx hcond
    induction n using Nat.strong_induction_on generalizing x with
    | _ n ihn =>
      cases n with
      | zero =>
        have hxs : x = s := by simpa [reachesInB] using hx
        rw [hxs]
        rcases inv.s_state with h | ⟨h1, h2⟩
        · exact List.mem_append.mpr (.inl h)
        · have hsv2 : sv = s := by
            have := congrArg List.head? h2
            simpa using this
          rw [← hsv2]
          simp
      | succ m =>
        obtain ⟨p, hp, hpre, hmem⟩ := (reaches_step g s m x).mp hx
        obtain ⟨u, nsu⟩ := p
        have hu : u ∈ proc ++ [sv] := by
          refine ihn m (by omega) u hpre ?_
          intro hd hhd
          have := hcond hd hhd
          omega
        have hqu : qget g u = some nsu := qget_of_mem_nodup g u nsu hnd hp
        have hcl := closure2 u hu nsu hqu x hmem
        have hxk := hcl.1
        rw [keys_eq2] at hxk
        rcases List.mem_append.mp hxk with h | h
        · exact h
        · exfalso
          cases hq2 : rest ++ fresh with
          | nil =>
            rw [hq2] at h
            cases h
          | cons a tl =>
            have hlt := hcond a (by rw [hq2]; rfl)
            have hle1 : bumpD vis D (D sv) a ≤ bumpD vis D (D sv) x :=
              hhd_le2 a (by rw [hq2]; rfl) x h
            have hle2 : bumpD vis D (D sv) x ≤ m + 1 := by
              refine dopt2 x (m + 1) hx ?_
              rw [keys_eq2]
              exact List.mem_append.mpr (.inr h)
            omega
  have chains2 : ∀ v ∈ visKeys vis2, ∃ t, chainFollowsB (predProj vis2) (v :: t) = true ∧
      t.length = bumpD vis D (D sv) v ∧ revChainB g (v :: t) = true ∧
      (v :: t).getLast? = some s ∧ t.length + 1 ≤ (visKeys vis2).length := by
    have hproj2 : predProj vis2 = predProj vis ++ fresh.map fun v => (v, some sv) :=
      predProj_append_batch vis fresh (some sv) vis2 hv
    intro v hvk
    rw [keys2] at hvk
    rcases List.mem_append.mp hvk with hvo | hvf
    · obtain ⟨t, hch, hlen, hrev, hlast, hcap⟩ := inv.chains v hvo
      refine ⟨t, ?_, ?_, hrev, hlast, ?_⟩
      · rw [hproj2]
        exact chainFollowsB_extend _ _ _ hch
      · rw [hD2old v hvo]
        exact hlen
      · rw [keys2]
        simp only [List.length_append]
        omega
    · obtain ⟨t, hch, hlen, hrev, hlast, hcap⟩ := inv.chains sv hsvk
      refine ⟨sv :: t, ?_, ?_, ?_, ?_, ?_⟩
      · simp only [chainFollowsB, Bool.and_eq_true, decide_eq_true_eq]
        constructor
        · rw [hproj2, qget_append_none _ _ _ (predProj_qget_none vis v (hnone v hvf))]
          exact qget_constMap fresh v _ hvf
        · rw [hproj2]
          exact chainFollowsB_extend _ _ _ hch
      · rw [hD2fresh v hvf]
        simp only [List.length_cons, hlen]
      · simp only [revChainB, Bool.and_eq_true]
        refine ⟨?_, hrev⟩
        simp only [edgeB, hsv]
        exact (containsB_iff ns v).mpr (hsub v hvf)
      · rw [List.getLast?_cons_cons]
        exact hlast
      · rw [keys2]
        simp only [List.length_append, List.length_cons]
        have hfpos : 0 < fresh.length := List.length_pos.mpr (List.ne_nil_of_mem hvf)
        omega
  have no_e2 : e ∉ visKeys vis2 := by
    rw [keys2]
    intro h
    rcases List.mem_append.mp h with h | h
    · exact inv.no_e h
    · exact hene h
  have fuel_ok2 : (rest ++ fresh).length + capBound g ≤ fuel + (visKeys vis2).length := by
    have h := inv.fuel_ok
    rw [keys2]
    simp only [List.length_append, List.length_cons] at h ⊢
    omega
  exact ⟨keys_eq2, keys_nodup2, s_state2, ds_zero2, mono2, last_head2, closure2, dopt2,
    front2, chains2, no_e2, fuel_ok2⟩

/-- A full breadth-first run from an invariant state with the end
reachable: the loop returns the reverse path of the end's first-discovery
predecessor chain, of minimal edge count, and that chain also follows the
predecessor map of the stop-free traversal launched from the same state. -/
theorem bfsLoop_run (g : UGraph) (s e : Entity) (hnd : (g.map Prod.fst).Nodup)
    (n : Nat) (hreach : reachesInB g s n e = true) :
    ∀ (fuel : Nat) (D : Entity → Nat) (proc q : List Entity) (vis : VisitedNodes),
      BfsInv g s e D proc q vis fuel →
      ∃ vs, bfsLoop g e fuel q vis = .ok (vs.map fun v => (v, ())) ∧
        vs.head? = some e ∧ vs.getLast? = some s ∧ revChainB g vs = true ∧
        reachesInB g s (vs.length - 1) e = true ∧
        (∀ m, reachesInB g s m e = true → vs.length - 1 ≤ m) ∧
        chainFollowsB (predProj (bfsAllLoop g fuel q vis)) vs = true := by
  intro fuel
  induction fuel with
  | zero =>
    intro D proc q vis inv
    exfalso
    cases q with
    | nil => exact bfsInv_empty_unreachable g s e D proc vis 0 inv n hreach
    | cons sv rest =>
      have := bfsInv_fuel_pos g s e D proc (sv :: rest) vis 0 inv (by simp)
      omega
  | succ fuel ih =>
    intro D proc q vis inv
    cases q with
    | nil =>
      exfalso
      exact bfsInv_empty_unreachable g s e D proc vis (fuel + 1) inv n hreach
    | cons sv rest =>
      rcases hsv : qget g sv with _ | ns
      · have inv2 := bfsInv_step_none g s e hnd D proc rest sv vis fuel inv hsv
        obtain ⟨vs, hrun, h1, h2, h3, h4, h5, h6⟩ := ih D (proc ++ [sv]) rest vis inv2
        refine ⟨vs, ?_, h1, h2, h3, h4, h5, ?_⟩
        · simp only [bfsLoop, hsv]
          exact hrun
        · have hstep : bfsAllLoop g (fuel + 1) (sv :: rest) vis = bfsAllLoop g fuel rest vis := by
            simp only [bfsAllLoop, hsv]
          rw [hstep]
          exact h6
      · rcases hscan : bfsScan (some e) sv ns rest vis with ⟨q2, vis2⟩ | vis3
        · obtain ⟨D2, inv2⟩ :=
            bfsInv_step_scan g s e hnd D proc rest sv vis fuel ns q2 vis2 inv hsv hscan
          obtain ⟨vs, hrun, h1, h2, h3, h4, h5, h6⟩ := ih D2 (proc ++ [sv]) q2 vis2 inv2
          refine ⟨vs, ?_, h1, h2, h3, h4, h5, ?_⟩
          · simp only [bfsLoop, hsv, hscan]
            exact hrun
          · have hnn := bfsScan_none_of_inl e sv ns rest vis q2 vis2 hscan
            have hstep : bfsAllLoop g (fuel + 1) (sv :: rest) vis = bfsAllLoop g fuel q2 vis2 := by
              simp only [bfsAllLoop, hsv, hnn]
            rw [hstep]
            exact h6
        · obtain ⟨fresh, hv3, hsubf, hens, hnonee, henef⟩ :=
            bfsScan_some_inr e sv ns rest vis vis3 hscan
          have hsvk : sv ∈ visKeys vis := by
            rw [inv.keys_eq]
            exact List.mem_append.mpr (.inr (List.mem_cons_self _ _))
          have hske : s ∈ visKeys vis :=
            bfsInv_s_mem g s e D proc sv rest vis (fuel + 1) inv
          obtain ⟨t, hch, hlen, hrev, hlast, hcap⟩ := inv.chains sv hsvk
          have hproj3 : predProj vis3 = predProj vis ++ (fresh ++ [e]).map fun v => (v, some sv) :=
            predProj_append_batch vis (fresh ++ [e]) (some sv) vis3 hv3
          have hqe : qget (predProj vis3) e = some (some sv) := by
            rw [hproj3, qget_append_none _ _ _ (predProj_qget_none vis e hnonee),
              List.map_append, qget_append_none _ _ _ (qget_constMap_none fresh e _ henef)]
            simp [qget]
          have hchain3 : chainFollowsB (predProj vis3) (e :: sv :: t) = true := by
            simp only [chainFollowsB, Bool.and_eq_true, decide_eq_true_eq]
            constructor
            · exact hqe
            · rw [hproj3]
              exact chainFollowsB_extend _ _ _ hch
          have hcap3 : (sv :: t).length + 1 ≤ (predProj vis3).length := by
            have hkl : (visKeys vis).length = vis.entries.length := by
              simp [visKeys]
            rw [hproj3]
            simp only [predProj, List.length_append, List.length_map, List.length_cons]
            simp only [List.length_append, List.length_cons, List.length_nil]
            omega
          have hdet : determine_path (predProj vis3) e = .ok (e :: sv :: t) :=
            determine_path_of_chain (predProj vis3) e (sv :: t) hchain3 hcap3
          have hvdp : visitedDeterminePath vis3 e = .ok ((e :: sv :: t).map fun v => (v, ())) := by
            simp only [visitedDeterminePath, hdet]
          have hmin : ∀ m, reachesInB g s m e = true → t.length + 1 ≤ m := by
            intro m hm
            by_contra hlt
            push_neg at hlt
            cases m with
            | zero =>
              have hes : e = s := by simpa [reachesInB] using hm
              refine inv.no_e ?_
              rw [hes]
              exact hske
            | succ m2 =>
              obtain ⟨p, hp, hpre, hmem⟩ := (reaches_step g s m2 e).mp hm
              obtain ⟨u, nsu⟩ := p
              have hm2 : m2 < D sv := by omega
              have hu : u ∈ proc := by
                refine inv.front u m2 hpre ?_
                intro hd hhd
                injection hhd with hhd
                subst hhd
                exact hm2
              have hqu : qget g u = some nsu := qget_of_mem_nodup g u nsu hnd hp
              exact inv.no_e (inv.closure u hu nsu hqu e hmem).1
          have hreache : reachesInB g s (t.length + 1) e = true := by
            have hrsv : reachesInB g s t.length sv = true :=
              revChain_reaches g s t sv hrev hlast
            exact (reaches_step g s t.length e).mpr ⟨(sv, ns), qget_mem g sv ns hsv, hrsv, hens⟩
          obtain ⟨q3, vis3b, ext, hrunb, hextb⟩ :=
            bfsScan_none_of_inr e sv ns rest vis vis3 hscan
          have hstep : bfsAllLoop g (fuel + 1) (sv :: rest) vis = bfsAllLoop g fuel q3 vis3b := by
            simp only [bfsAllLoop, hsv, hrunb]
          obtain ⟨ext2, hext2⟩ := bfsAllLoop_mono g fuel q3 vis3b
          have hfinal : (bfsAllLoop g (fuel + 1) (sv :: rest) vis).entries =
              vis3.entries ++ (ext ++ ext2) := by
            rw [hstep, hext2, hextb, List.append_assoc]
          have hchainAll :
              chainFollowsB (predProj (bfsAllLoop g (fuel + 1) (sv :: rest) vis))
                (e :: sv :: t) = true := by
            have hpp : predProj (bfsAllLoop g (fuel + 1) (sv :: rest) vis) =
                predProj vis3 ++ (ext ++ ext2).map fun p => (p.1, p.2.pred) := by
              simp only [predProj, hfinal, List.map_append]
            rw [hpp]
            exact chainFollowsB_extend _ _ _ hchain3
          have hlone : (e :: sv :: t).length - 1 = t.length + 1 := by
            simp
          refine ⟨e :: sv :: t, ?_, rfl, ?_, ?_, ?_, ?_, hchainAll⟩
          · simp only [bfsLoop, hsv, hscan, hvdp, expectOk]
          · rw [List.getLast?_cons_cons]
            exact hlast
          · simp only [revChainB, Bool.and_eq_true]
            refine ⟨?_, hrev⟩
            simp only [edgeB, hsv]
            exact (containsB_iff ns e).mpr hens
          · rw [hlone]
            exact hreache
          · intro m hm
            rw [hlone]
            exact hmin m hm

/-- The invariant holds at the initial state of the breadth-first loop. -/
theorem bfsInv_start (g : UGraph) (s e : Entity) (hse : s ≠ e) :
    BfsInv g s e (fun _ => 0) [] [s] (VisitedNodes.new_from_start s) (bfsFuel g) := by
  refine ⟨?_, ?_, Or.inr ⟨rfl, rfl⟩, rfl, ?_, ?_, ?_, ?_, ?_, ?_, ?_, ?_⟩
  · simp [visKeys, VisitedNodes.new_from_start]
  · simp [visKeys, VisitedNodes.new_from_start]
  · simp [visKeys, VisitedNodes.new_from_start]
  · intro hd hhd v hv
    exact Nat.le_succ 0
  · intro u hu
    cases hu
  · intro x n hx hk
    exact Nat.zero_le n
  · intro x n hx hcond
    have h := hcond s rfl
    exact absurd h (Nat.not_lt_zero n)
  · intro v hv
    simp only [visKeys, VisitedNodes.new_from_start, List.map_cons, List.map_nil,
      List.mem_singleton] at hv
    subst hv
    refine ⟨[], ?_, rfl, rfl, rfl, ?_⟩
    · simp [chainFollowsB, predProj, VisitedNodes.new_from_start, qget]
    · simp [visKeys, VisitedNodes.new_from_start]
  · intro hmem
    simp only [visKeys, VisitedNodes.new_from_start, List.map_cons, List.map_nil,
      List.mem_singleton] at hmem
    exact hse hmem.symm
  · simp only [List.length_singleton, bfsFuel, visKeys, VisitedNodes.new_from_start,
      List.map_cons, List.map_nil, List.length_cons, List.length_nil]
    omega

/-- Claim C1: on every store with duplicate-free vertex entries, whenever
the end is reachable from the start, bfs returns Ok with a reverse path
running from the end vertex back to the start along store edges, whose
edge count is minimal among all start-to-end walks, and which follows the
predecessor assigned to each vertex at its first discovery in the
breadth-first neighbour-enumeration order from the start. -/
theorem bfs_shortest_path_first_discovery (g : UGraph) (s e : Entity) (n : Nat)
    (hnd : (g.map Prod.fst).Nodup) (hreach : reachesInB g s n e = true) :
    ∃ vs : List Entity, bfs g s e = .ok (vs.map fun v => (v, ())) ∧
      vs.head? = some e ∧ vs.getLast? = some s ∧ revChainB g vs = true ∧
      reachesInB g s (vs.length - 1) e = true ∧
      (∀ m, reachesInB g s m e = true → vs.length - 1 ≤ m) ∧
      chainFollowsB (discoveryMap g s) vs = true := by
  by_cases hse : s = e
  · subst hse
    refine ⟨[s], ?_, rfl, rfl, rfl, ?_, ?_, ?_⟩
    · simp [bfs, GraphPath.single]
    · simp [reachesInB]
    · intro m hm
      simp
    · obtain ⟨ext, hext⟩ := bfsAllLoop_mono g (bfsFuel g) [s] (VisitedNodes.new_from_start s)
      simp only [discoveryMap, chainFollowsB, decide_eq_true_eq, predProj, hext]
      simp [VisitedNodes.new_from_start, qget]
  · obtain ⟨vs, hrun, h1, h2, h3, h4, h5, h6⟩ :=
      bfsLoop_run g s e hnd n hreach (bfsFuel g) (fun _ => 0) [] [s]
        (VisitedNodes.new_from_start s) (bfsInv_start g s e hse)
    refine ⟨vs, ?_, h1, h2, h3, h4, h5, h6⟩
    simp only [bfs, if_neg hse]
    exact hrun

/-- Witness for claim C1 on the two-vertex store with the single edge from
0 to 1: both hypotheses hold and the guaranteed path exists. -/
theorem bfs_shortest_path_first_discovery_witness :
    (exTwoVert.map Prod.fst).Nodup ∧ reachesInB exTwoVert 0 1 1 = true ∧
    ∃ vs : List Entity, bfs exTwoVert 0 1 = .ok (vs.map fun v => (v, ())) ∧
      vs.head? = some 1 ∧ vs.getLast? = some 0 ∧ revChainB exTwoVert vs = true ∧
      reachesInB exTwoVert 0 (vs.length - 1) 1 = true ∧
      (∀ m, reachesInB exTwoVert 0 m 1 = true → vs.length - 1 ≤ m) ∧
      chainFollowsB (discoveryMap exTwoVert 0) vs = true :=
  ⟨by decide, by decide,
    bfs_shortest_path_first_discovery exTwoVert 0 1 1 (by decide) (by decide)⟩
